import Mathlib

/-!
Verification of the `encoding` toolkit: cipher primitives
(Caesar, Atbash, Affine, Vigenere, RailFence, ColumnarTransposition),
the Pipeline combinator, the Salt transform and the structured-data codec.

Strings are embedded as lists of Unicode code points (`List Nat`), one
entry per character, mirroring Python `ord`/`chr`.  Every operation that
can raise in Python returns an `Option`; `none` models a raised exception.
-/

namespace Enc

/-- Python `chr`: defined for code points in `[0, 0x10FFFF]`, raises otherwise. -/
def chrOpt (v : Int) : Option Nat :=
  if 0 ≤ v ∧ v < 1114112 then some v.toNat else none

/-- One character of the printable domain `0x20 .. 0x7E` (the test
`32 <= ord(char) <= 126` appearing in every cipher). -/
def inPrintable (c : Nat) : Bool := 32 ≤ c && c ≤ 126

/-- The guard `any(32 <= ord(char) <= 126 for char in text)` shared by all
ciphers: the cipher raises (for nonempty text) exactly when this is false. -/
def domainCheckPasses (s : List Nat) : Bool := s.any inPrintable

/-- Sequencing of a fallible per-element operation over a list, stopping at
the first failure — the shape of every `for` loop that may raise mid-way. -/
def optMap (f : α → Option β) : List α → Option (List β)
  | [] => some []
  | x :: xs =>
    match f x with
    | none => none
    | some y => (optMap f xs).map (fun ys => y :: ys)

theorem optMap_length (f : α → Option β) :
    ∀ (l : List α) (r : List β), optMap f l = some r → r.length = l.length := by
  intro l
  induction l with
  | nil => intro r h; simp [optMap] at h; simp [← h]
  | cons x xs ih =>
    intro r h
    simp only [optMap] at h
    cases hx : f x with
    | none => rw [hx] at h; simp at h
    | some y =>
      rw [hx] at h
      cases hxs : optMap f xs with
      | none => rw [hxs] at h; simp at h
      | some ys =>
        rw [hxs] at h
        simp at h
        subst h
        simp [ih ys hxs]

theorem optMap_eq_some_map (f : α → Option β) (g : α → β) :
    ∀ (l : List α), (∀ x ∈ l, f x = some (g x)) → optMap f l = some (l.map g) := by
  intro l
  induction l with
  | nil => intro _; simp [optMap]
  | cons x xs ih =>
    intro h
    have hx := h x (by simp)
    simp only [optMap, hx]
    rw [ih (fun y hy => h y (by simp [hy]))]
    simp

theorem optMap_congr (f g : α → Option β) (l : List α)
    (h : ∀ x ∈ l, f x = g x) : optMap f l = optMap g l := by
  induction l with
  | nil => simp [optMap]
  | cons x xs ih =>
    simp only [optMap, h x (by simp)]
    rw [ih (fun y hy => h y (by simp [hy]))]

/-! ## CaesarCipher (`encoding/ciphers/substitution.py`) -/

/-- The per-character transform of `CaesarCipher.encode`: in `alpha_only`
mode the two cased ranges are shifted with an explicit `±26` wrap, other
characters pass through; otherwise `chr(((ord(i) - 32 + shift) % 95) + 32)`. -/
def caesarEncChar (shift : Int) (alphaOnly : Bool) (c : Nat) : Option Nat :=
  if alphaOnly then
    let v : Int := (c : Int) + shift
    if 65 ≤ c ∧ c ≤ 90 then
      if v ≤ 90 then chrOpt v else chrOpt (v - 26)
    else if 97 ≤ c ∧ c ≤ 122 then
      if v ≤ 122 then chrOpt v else chrOpt (v - 26)
    else some c
  else
    chrOpt (((c : Int) - 32 + shift) % 95 + 32)

/-- The per-character transform of `CaesarCipher.decode`. -/
def caesarDecChar (shift : Int) (alphaOnly : Bool) (c : Nat) : Option Nat :=
  if alphaOnly then
    let v : Int := (c : Int) - shift
    if 65 ≤ c ∧ c ≤ 90 then
      if 65 ≤ v then chrOpt v else chrOpt (v + 26)
    else if 97 ≤ c ∧ c ≤ 122 then
      if 97 ≤ v then chrOpt v else chrOpt (v + 26)
    else some c
  else
    chrOpt (((c : Int) - 32 - shift) % 95 + 32)

/-- `CaesarCipher.encode`: empty text returns unchanged; then the
`any(32 <= ord(char) <= 126)` guard; then the character loop. -/
def caesarEncode (shift : Int) (alphaOnly : Bool) (s : List Nat) : Option (List Nat) :=
  if s = [] then some s
  else if ¬ domainCheckPasses s then none
  else optMap (caesarEncChar shift alphaOnly) s

/-- `CaesarCipher.decode`. -/
def caesarDecode (shift : Int) (alphaOnly : Bool) (s : List Nat) : Option (List Nat) :=
  if s = [] then some s
  else if ¬ domainCheckPasses s then none
  else optMap (caesarDecChar shift alphaOnly) s

theorem caesarEncChar_full (shift : Int) (c : Nat) :
    caesarEncChar shift false c =
      some ((((c : Int) - 32 + shift) % 95 + 32).toNat) := by
  have h1 := Int.emod_nonneg ((c : Int) - 32 + shift) (by norm_num : (95 : Int) ≠ 0)
  have h2 := Int.emod_lt_of_pos ((c : Int) - 32 + shift) (by norm_num : (0 : Int) < 95)
  simp only [caesarEncChar, Bool.false_eq_true, if_false, chrOpt]
  rw [if_pos (by omega)]

theorem caesarDecChar_full (shift : Int) (c : Nat) :
    caesarDecChar shift false c = caesarEncChar (-shift) false c := by
  simp only [caesarDecChar, caesarEncChar, Bool.false_eq_true, if_false, sub_eq_add_neg]

theorem caesar_char_roundtrip_full (shift : Int) (c : Nat)
    (hc : 32 ≤ c ∧ c ≤ 126) :
    caesarDecChar shift false ((((c : Int) - 32 + shift) % 95 + 32).toNat) = some c := by
  rw [caesarDecChar_full, caesarEncChar_full]
  congr 1
  have h1 := Int.emod_nonneg ((c : Int) - 32 + shift) (by norm_num : (95 : Int) ≠ 0)
  have h2 := Int.emod_lt_of_pos ((c : Int) - 32 + shift) (by norm_num : (0 : Int) < 95)
  have h3 : (((((c : Int) - 32 + shift) % 95 + 32).toNat : Int)) =
      ((c : Int) - 32 + shift) % 95 + 32 := by omega
  rw [h3]
  omega

/-- C2 helper: the mapped form of full-range encode on in-domain text. -/
theorem caesarEncode_full_eq (shift : Int) (s : List Nat)
    (hs : ∀ c ∈ s, 32 ≤ c ∧ c ≤ 126) :
    caesarEncode shift false s =
      some (s.map (fun c : Nat => (((c : Int) - 32 + shift) % 95 + 32).toNat)) := by
  cases s with
  | nil => simp [caesarEncode]
  | cons a l =>
    have hpass : domainCheckPasses (a :: l) = true := by
      have := hs a (by simp)
      simp only [domainCheckPasses, List.any_cons, Bool.or_eq_true, inPrintable,
        Bool.and_eq_true, decide_eq_true_eq]
      exact Or.inl ⟨by omega, by omega⟩
    unfold caesarEncode
    rw [if_neg (by simp), if_neg (by simp [hpass])]
    exact optMap_eq_some_map _ _ _ (fun c _ => caesarEncChar_full shift c)

theorem optMap_map (f : β → Option γ) (g : α → β) (l : List α) :
    optMap f (l.map g) = optMap (fun x => f (g x)) l := by
  induction l with
  | nil => simp [optMap]
  | cons x xs ih => simp only [List.map_cons, optMap, ih]

theorem domainCheckPasses_cons (a : Nat) (l : List Nat) (h : 32 ≤ a ∧ a ≤ 126) :
    domainCheckPasses (a :: l) = true := by
  simp only [domainCheckPasses, List.any_cons, Bool.or_eq_true, inPrintable,
    Bool.and_eq_true, decide_eq_true_eq]
  exact Or.inl ⟨h.1, h.2⟩

/-- C2: for CaesarCipher with alpha_only=False and text whose characters lie
in 0x20..0x7E, encode maps each character c to chr(((ord(c)-32+shift) mod 95)+32),
decode is encode with the negated shift, and decode(encode(s)) = s. -/
theorem caesar_full_spec_and_roundtrip (shift : Int) (s : List Nat)
    (hs : ∀ c ∈ s, 32 ≤ c ∧ c ≤ 126) :
    caesarEncode shift false s =
        some (s.map (fun c : Nat => (((c : Int) - 32 + shift) % 95 + 32).toNat))
    ∧ (∀ t : List Nat, caesarDecode shift false t = caesarEncode (-shift) false t)
    ∧ (caesarEncode shift false s).bind (caesarDecode shift false) = some s := by
  have hdec : ∀ t : List Nat, caesarDecode shift false t = caesarEncode (-shift) false t := by
    intro t
    unfold caesarDecode caesarEncode
    by_cases ht : t = []
    · simp [ht]
    · rw [if_neg ht, if_neg ht]
      by_cases hp : domainCheckPasses t
      · rw [if_neg (by simp [hp]), if_neg (by simp [hp])]
        exact optMap_congr _ _ _ (fun c _ => caesarDecChar_full shift c)
      · rw [if_pos (by simp [hp]), if_pos (by simp [hp])]
  refine ⟨caesarEncode_full_eq shift s hs, hdec, ?_⟩
  rw [caesarEncode_full_eq shift s hs, Option.some_bind]
  cases s with
  | nil => simp [caesarDecode]
  | cons a l =>
    have henc_bounds : ∀ c : Nat,
        32 ≤ (((c : Int) - 32 + shift) % 95 + 32).toNat ∧
        (((c : Int) - 32 + shift) % 95 + 32).toNat ≤ 126 := by
      intro c
      have h1 := Int.emod_nonneg ((c : Int) - 32 + shift) (by norm_num : (95 : Int) ≠ 0)
      have h2 := Int.emod_lt_of_pos ((c : Int) - 32 + shift) (by norm_num : (0 : Int) < 95)
      omega
    unfold caesarDecode
    rw [if_neg (by simp)]
    rw [if_neg (by
      simp only [List.map_cons]
      simp [domainCheckPasses_cons _ _ (henc_bounds a)])]
    rw [optMap_map]
    exact optMap_eq_some_map _ id (a :: l)
      (fun c hc => by
        rw [caesar_char_roundtrip_full shift c (hs c hc)]
        rfl) |>.trans (by simp)

/-- C2 witness at shift 3 on the two-character text `"A "` (codes 65, 32). -/
theorem caesar_full_spec_and_roundtrip_witness :
    caesarEncode 3 false [65, 32] =
        some ([65, 32].map (fun c : Nat => (((c : Int) - 32 + 3) % 95 + 32).toNat))
    ∧ (∀ t : List Nat, caesarDecode 3 false t = caesarEncode (-3) false t)
    ∧ (caesarEncode 3 false [65, 32]).bind (caesarDecode 3 false) = some [65, 32] :=
  caesar_full_spec_and_roundtrip 3 [65, 32] (by decide)

/-! ## CaesarCipher, letters-only mode (claim C8) -/

/-- The map the spec ascribes to letters-only Caesar: rotate each cased
letter by the shift modulo 26 within its own case, leave the rest alone. -/
def caesarAlphaSpec (shift : Int) (c : Nat) : Nat :=
  if 65 ≤ c ∧ c ≤ 90 then (((c : Int) - 65 + shift) % 26 + 65).toNat
  else if 97 ≤ c ∧ c ≤ 122 then (((c : Int) - 97 + shift) % 26 + 97).toNat
  else c

theorem caesarEncChar_alpha (shift : Int) (hk : 0 ≤ shift ∧ shift ≤ 26) (c : Nat) :
    caesarEncChar shift true c = some (caesarAlphaSpec shift c) := by
  simp only [caesarEncChar, caesarAlphaSpec, if_true, chrOpt]
  by_cases h1 : 65 ≤ c ∧ c ≤ 90
  · rw [if_pos h1, if_pos h1]
    by_cases h2 : (c : Int) + shift ≤ 90
    · rw [if_pos h2, if_pos (by omega)]
      congr 1
      omega
    · rw [if_neg h2, if_pos (by omega)]
      congr 1
      omega
  · rw [if_neg h1, if_neg h1]
    by_cases h3 : 97 ≤ c ∧ c ≤ 122
    · rw [if_pos h3, if_pos h3]
      by_cases h2 : (c : Int) + shift ≤ 122
      · rw [if_pos h2, if_pos (by omega)]
        congr 1
        omega
      · rw [if_neg h2, if_pos (by omega)]
        congr 1
        omega
    · rw [if_neg h3, if_neg h3]

theorem caesarDecChar_alpha (shift : Int) (hk : 0 ≤ shift ∧ shift ≤ 26) (c : Nat) :
    caesarDecChar shift true (caesarAlphaSpec shift c) = some c := by
  simp only [caesarAlphaSpec, caesarDecChar, if_true, chrOpt]
  by_cases h1 : 65 ≤ c ∧ c ≤ 90
  · rw [if_pos h1]
    have hm1 := Int.emod_nonneg ((c : Int) - 65 + shift) (by norm_num : (26 : Int) ≠ 0)
    have hm2 := Int.emod_lt_of_pos ((c : Int) - 65 + shift) (by norm_num : (0 : Int) < 26)
    rw [if_pos (by omega : 65 ≤ (((c : Int) - 65 + shift) % 26 + 65).toNat ∧
        (((c : Int) - 65 + shift) % 26 + 65).toNat ≤ 90)]
    have hsplit : ((c : Int) - 65 + shift) % 26 = (c : Int) - 65 + shift ∨
        ((c : Int) - 65 + shift) % 26 = (c : Int) - 65 + shift - 26 := by omega
    by_cases h2 : 65 ≤ ((((c : Int) - 65 + shift) % 26 + 65).toNat : Int) - shift
    · rw [if_pos h2, if_pos (by omega)]
      congr 1
      omega
    · rw [if_neg h2, if_pos (by omega)]
      congr 1
      omega
  · rw [if_neg h1]
    by_cases h3 : 97 ≤ c ∧ c ≤ 122
    · rw [if_pos h3]
      have hm1 := Int.emod_nonneg ((c : Int) - 97 + shift) (by norm_num : (26 : Int) ≠ 0)
      have hm2 := Int.emod_lt_of_pos ((c : Int) - 97 + shift) (by norm_num : (0 : Int) < 26)
      rw [if_neg (by omega : ¬(65 ≤ (((c : Int) - 97 + shift) % 26 + 97).toNat ∧
          (((c : Int) - 97 + shift) % 26 + 97).toNat ≤ 90))]
      rw [if_pos (by omega : 97 ≤ (((c : Int) - 97 + shift) % 26 + 97).toNat ∧
          (((c : Int) - 97 + shift) % 26 + 97).toNat ≤ 122)]
      have hsplit : ((c : Int) - 97 + shift) % 26 = (c : Int) - 97 + shift ∨
          ((c : Int) - 97 + shift) % 26 = (c : Int) - 97 + shift - 26 := by omega
      by_cases h2 : 97 ≤ ((((c : Int) - 97 + shift) % 26 + 97).toNat : Int) - shift
      · rw [if_pos h2, if_pos (by omega)]
        congr 1
        omega
      · rw [if_neg h2, if_pos (by omega)]
        congr 1
        omega
    · rw [if_neg h3, if_neg h1, if_neg h3]

theorem caesarAlphaSpec_printable (shift : Int) (c : Nat)
    (hc : 32 ≤ c ∧ c ≤ 126) : 32 ≤ caesarAlphaSpec shift c ∧ caesarAlphaSpec shift c ≤ 126 := by
  unfold caesarAlphaSpec
  by_cases h1 : 65 ≤ c ∧ c ≤ 90
  · rw [if_pos h1]
    have hm1 := Int.emod_nonneg ((c : Int) - 65 + shift) (by norm_num : (26 : Int) ≠ 0)
    have hm2 := Int.emod_lt_of_pos ((c : Int) - 65 + shift) (by norm_num : (0 : Int) < 26)
    omega
  · rw [if_neg h1]
    by_cases h3 : 97 ≤ c ∧ c ≤ 122
    · rw [if_pos h3]
      have hm1 := Int.emod_nonneg ((c : Int) - 97 + shift) (by norm_num : (26 : Int) ≠ 0)
      have hm2 := Int.emod_lt_of_pos ((c : Int) - 97 + shift) (by norm_num : (0 : Int) < 26)
      omega
    · rw [if_neg h3]
      exact hc

/-- C8 counterexample: with shift 27 in letters-only mode, encode sends
the letter Z (90) to the non-letter 91, while the claim predicts the
letter at position (25+27) mod 26 = 0, namely A (65); the decode of the
encode is 91, not 90. -/
theorem caesar_alpha_shift27_breaks :
    caesarEncode 27 true [90] = some [91]
    ∧ 65 + (90 - 65 + 27) % 26 = 65
    ∧ (caesarEncode 27 true [90]).bind (caesarDecode 27 true) = some [91] := by
  refine ⟨?_, by norm_num, ?_⟩ <;> decide

/-- C8 (amended to shifts between 0 and 26): letters-only Caesar rotates
each cased letter by the shift modulo 26 within its case, leaves other
characters unchanged, and decode inverts encode. -/
theorem caesar_alpha_spec_and_roundtrip (shift : Int) (s : List Nat)
    (hk : 0 ≤ shift ∧ shift ≤ 26) (hs : ∀ c ∈ s, 32 ≤ c ∧ c ≤ 126) :
    caesarEncode shift true s = some (s.map (caesarAlphaSpec shift))
    ∧ (caesarEncode shift true s).bind (caesarDecode shift true) = some s := by
  have henc : caesarEncode shift true s = some (s.map (caesarAlphaSpec shift)) := by
    cases s with
    | nil => simp [caesarEncode]
    | cons a l =>
      have hpass : domainCheckPasses (a :: l) = true := by
        have := hs a (by simp)
        simp only [domainCheckPasses, List.any_cons, Bool.or_eq_true, inPrintable,
          Bool.and_eq_true, decide_eq_true_eq]
        exact Or.inl ⟨by omega, by omega⟩
      unfold caesarEncode
      rw [if_neg (by simp), if_neg (by simp [hpass])]
      exact optMap_eq_some_map _ _ _ (fun c _ => caesarEncChar_alpha shift hk c)
  refine ⟨henc, ?_⟩
  rw [henc, Option.some_bind]
  cases s with
  | nil => simp [caesarDecode]
  | cons a l =>
    unfold caesarDecode
    rw [if_neg (by simp)]
    rw [if_neg (by
      simp only [List.map_cons]
      simp [domainCheckPasses_cons _ _ (caesarAlphaSpec_printable shift a (hs a (by simp)))])]
    rw [optMap_map]
    exact optMap_eq_some_map _ id (a :: l)
      (fun c _ => by rw [caesarDecChar_alpha shift hk c]; rfl) |>.trans (by simp)

/-- C8 witness at shift 3 on the text `"Az!"` (codes 65, 122, 33). -/
theorem caesar_alpha_spec_and_roundtrip_witness :
    caesarEncode 3 true [65, 122, 33] = some ([65, 122, 33].map (caesarAlphaSpec 3))
    ∧ (caesarEncode 3 true [65, 122, 33]).bind (caesarDecode 3 true) = some [65, 122, 33] :=
  caesar_alpha_spec_and_roundtrip 3 [65, 122, 33] (by decide) (by decide)

/-! ## AtbashCipher (`encoding/ciphers/substitution.py`) -/

/-- The per-character transform of `AtbashCipher.encode`: `chr(155 - c)` on
uppercase, `chr(219 - c)` on lowercase in `alpha_only` mode, otherwise
`chr(126 - (c - 32))`. -/
def atbashChar (alphaOnly : Bool) (c : Nat) : Option Nat :=
  if alphaOnly then
    if 65 ≤ c ∧ c ≤ 90 then chrOpt (155 - (c : Int))
    else if 97 ≤ c ∧ c ≤ 122 then chrOpt (219 - (c : Int))
    else some c
  else
    chrOpt (126 - ((c : Int) - 32))

/-- `AtbashCipher.encode`. -/
def atbashEncode (alphaOnly : Bool) (s : List Nat) : Option (List Nat) :=
  if s = [] then some s
  else if ¬ domainCheckPasses s then none
  else optMap (atbashChar alphaOnly) s

/-- `AtbashCipher.decode`: after the same two guards it simply calls
`encode` on the text. -/
def atbashDecode (alphaOnly : Bool) (s : List Nat) : Option (List Nat) :=
  if s = [] then some s
  else if ¬ domainCheckPasses s then none
  else atbashEncode alphaOnly s

/-- The pure reflection the spec describes, used to state the involution. -/
def atbashSpecChar (alphaOnly : Bool) (c : Nat) : Nat :=
  if alphaOnly then
    if 65 ≤ c ∧ c ≤ 90 then 155 - c
    else if 97 ≤ c ∧ c ≤ 122 then 219 - c
    else c
  else 158 - c

theorem atbashChar_eq (alphaOnly : Bool) (c : Nat) (hc : 32 ≤ c ∧ c ≤ 126) :
    atbashChar alphaOnly c = some (atbashSpecChar alphaOnly c) := by
  cases alphaOnly with
  | false =>
    simp only [atbashChar, atbashSpecChar, Bool.false_eq_true, if_false, chrOpt]
    rw [if_pos (by omega)]
    congr 1
    omega
  | true =>
    simp only [atbashChar, atbashSpecChar, if_true, chrOpt]
    by_cases h1 : 65 ≤ c ∧ c ≤ 90
    · rw [if_pos h1, if_pos h1, if_pos (by omega)]
      congr 1
      omega
    · rw [if_neg h1, if_neg h1]
      by_cases h2 : 97 ≤ c ∧ c ≤ 122
      · rw [if_pos h2, if_pos h2, if_pos (by omega)]
        congr 1
        omega
      · rw [if_neg h2, if_neg h2]

theorem atbashSpecChar_printable (alphaOnly : Bool) (c : Nat) (hc : 32 ≤ c ∧ c ≤ 126) :
    32 ≤ atbashSpecChar alphaOnly c ∧ atbashSpecChar alphaOnly c ≤ 126 := by
  cases alphaOnly with
  | false => simp only [atbashSpecChar, Bool.false_eq_true, if_false]; omega
  | true =>
    simp only [atbashSpecChar, if_true]
    split
    · omega
    · split <;> omega

theorem atbashSpecChar_involutive (alphaOnly : Bool) (c : Nat) (hc : 32 ≤ c ∧ c ≤ 126) :
    atbashSpecChar alphaOnly (atbashSpecChar alphaOnly c) = c := by
  cases alphaOnly with
  | false => simp only [atbashSpecChar, Bool.false_eq_true, if_false]; omega
  | true =>
    simp only [atbashSpecChar, if_true]
    by_cases h1 : 65 ≤ c ∧ c ≤ 90
    · rw [if_pos h1, if_pos (by omega)]
      omega
    · rw [if_neg h1]
      by_cases h2 : 97 ≤ c ∧ c ≤ 122
      · rw [if_pos h2, if_neg (by omega), if_pos (by omega)]
        omega
      · rw [if_neg h2, if_neg h1, if_neg h2]

theorem atbashEncode_eq (alphaOnly : Bool) (s : List Nat)
    (hs : ∀ c ∈ s, 32 ≤ c ∧ c ≤ 126) :
    atbashEncode alphaOnly s = some (s.map (atbashSpecChar alphaOnly)) := by
  cases s with
  | nil => simp [atbashEncode]
  | cons a l =>
    unfold atbashEncode
    rw [if_neg (by simp),
      if_neg (by simp [domainCheckPasses_cons _ _ (hs a (by simp))])]
    exact optMap_eq_some_map _ _ _ (fun c hc => atbashChar_eq alphaOnly c (hs c hc))

/-- C7: in both modes, AtbashCipher decode agrees with encode on every
in-domain text, and encode is an involution there. -/
theorem atbash_self_inverse (alphaOnly : Bool) (s : List Nat)
    (hs : ∀ c ∈ s, 32 ≤ c ∧ c ≤ 126) :
    atbashDecode alphaOnly s = atbashEncode alphaOnly s
    ∧ (atbashEncode alphaOnly s).bind (atbashEncode alphaOnly) = some s := by
  constructor
  · cases s with
    | nil => simp [atbashDecode, atbashEncode]
    | cons a l =>
      unfold atbashDecode
      rw [if_neg (by simp),
        if_neg (by simp [domainCheckPasses_cons _ _ (hs a (by simp))])]
  · rw [atbashEncode_eq alphaOnly s hs, Option.some_bind]
    have hs2 : ∀ c ∈ s.map (atbashSpecChar alphaOnly), 32 ≤ c ∧ c ≤ 126 := by
      intro c hc
      rcases List.mem_map.mp hc with ⟨d, hd, rfl⟩
      exact atbashSpecChar_printable alphaOnly d (hs d hd)
    rw [atbashEncode_eq alphaOnly _ hs2, List.map_map]
    congr 1
    exact List.map_congr_left (fun c hc => atbashSpecChar_involutive alphaOnly c (hs c hc))
      |>.trans (List.map_id s)

/-- C7 witness on the text `"Az "` (codes 65, 122, 32). -/
theorem atbash_self_inverse_witness :
    (atbashDecode true [65, 122, 32] = atbashEncode true [65, 122, 32]
      ∧ (atbashEncode true [65, 122, 32]).bind (atbashEncode true) = some [65, 122, 32])
    ∧ (atbashDecode false [65, 122, 32] = atbashEncode false [65, 122, 32]
      ∧ (atbashEncode false [65, 122, 32]).bind (atbashEncode false) = some [65, 122, 32]) :=
  ⟨atbash_self_inverse true [65, 122, 32] (by decide),
   atbash_self_inverse false [65, 122, 32] (by decide)⟩

/-! ## AffineCipher (`encoding/ciphers/substitution.py`) -/

/-- `AffineCipher.__mod_inverse`: linear scan of `[1, m)` for the modular
inverse of `key_a`. -/
def modInverse (keyA : Int) (m : Nat) : Option Nat :=
  (List.range' 1 (m - 1)).find? (fun i => (keyA * (i : Int)) % (m : Int) == 1)

/-- The per-character transform of `AffineCipher.encode`; in `alpha_only`
mode the produced uppercase letter is re-cased to the case of the input. -/
def affineEncChar (keyA keyB : Int) (alphaOnly : Bool) (c : Nat) : Option Nat :=
  if alphaOnly then
    if 65 ≤ c ∧ c ≤ 90 then chrOpt ((keyA * ((c : Int) - 65) + keyB) % 26 + 65)
    else if 97 ≤ c ∧ c ≤ 122 then
      (chrOpt ((keyA * ((c : Int) - 97) + keyB) % 26 + 65)).map (fun r => r + 32)
    else some c
  else
    chrOpt ((keyA * ((c : Int) - 32) + keyB) % 95 + 32)

/-- The per-character transform of `AffineCipher.decode` (raises when the
inverse scan finds nothing). -/
def affineDecChar (keyA keyB : Int) (alphaOnly : Bool) (c : Nat) : Option Nat :=
  if alphaOnly then
    if 65 ≤ c ∧ c ≤ 90 then
      match modInverse keyA 26 with
      | none => none
      | some inv => (chrOpt (((inv : Int) * ((c : Int) - 65 - keyB)) % 26)).map (fun r => r + 65)
    else if 97 ≤ c ∧ c ≤ 122 then
      match modInverse keyA 26 with
      | none => none
      | some inv => (chrOpt (((inv : Int) * ((c : Int) - 97 - keyB)) % 26)).map (fun r => r + 97)
    else some c
  else
    match modInverse keyA 95 with
    | none => none
    | some inv => chrOpt (((inv : Int) * ((c : Int) - 32 - keyB)) % 95 + 32)

/-- `AffineCipher.encode`. -/
def affineEncode (keyA keyB : Int) (alphaOnly : Bool) (s : List Nat) : Option (List Nat) :=
  if s = [] then some s
  else if ¬ domainCheckPasses s then none
  else optMap (affineEncChar keyA keyB alphaOnly) s

/-- `AffineCipher.decode`. -/
def affineDecode (keyA keyB : Int) (alphaOnly : Bool) (s : List Nat) : Option (List Nat) :=
  if s = [] then some s
  else if ¬ domainCheckPasses s then none
  else optMap (affineDecChar keyA keyB alphaOnly) s

/-! ## VigenereCipher (`encoding/ciphers/substitution.py`) -/

def toUpperChar (c : Nat) : Nat := if 97 ≤ c ∧ c ≤ 122 then c - 32 else c

def toLowerChar (c : Nat) : Nat := if 65 ≤ c ∧ c ≤ 90 then c + 32 else c

def isAlphaChar (c : Nat) : Bool := (65 ≤ c && c ≤ 90) || (97 ≤ c && c ≤ 122)

/-- Python `key * n` (string repetition). -/
def repeatList (key : List Nat) : Nat → List Nat
  | 0 => []
  | n + 1 => key ++ repeatList key n

/-- Entry `[r][c]` of the Vigenere matrix built by `__generate_matrix`:
row `r` is the alphabet rolled left by `r`, so the entry is
`chr(65 + (r + c) % 26)`. -/
def vigMatrix (r c : Nat) : Nat := 65 + (r + c) % 26

/-- The body of the `VigenereCipher.encode` loop at one position, given the
(already uppercased) key character `k`; raises if `k` is not alphabetic in
`alpha_only` mode. -/
def vigenereEncChar (alphaOnly : Bool) (k c : Nat) : Option Nat :=
  if alphaOnly then
    if isAlphaChar k then
      if 65 ≤ c ∧ c ≤ 90 then some (vigMatrix (c - 65) (toUpperChar k - 65))
      else if 97 ≤ c ∧ c ≤ 122 then some (toLowerChar (vigMatrix (c - 97) (toLowerChar k - 97)))
      else some c
    else none
  else
    chrOpt ((((c : Int) - 32) + ((k : Int) - 32)) % 95 + 32)

/-- `VigenereCipher.encode`: the key is repeated `len(text)//len(key) + 1`
times and uppercased, then the loop pairs `final_key[i]` with `text[i]`.
(The constructor rejects an empty key, so `key` is nonempty wherever this
is used.) -/
def vigenereEncode (key : List Nat) (alphaOnly : Bool) (s : List Nat) : Option (List Nat) :=
  if s = [] then some s
  else if ¬ domainCheckPasses s then none
  else
    let fk := (repeatList key (s.length / key.length + 1)).map toUpperChar
    optMap (fun p => vigenereEncChar alphaOnly p.1 p.2) (fk.zip s)

/-- The body of the `VigenereCipher.decode` loop at one position in
full-range mode: `chr((((ord(t)-32) - (ord(k)-32)) % 95) + 32)`.  (The
`alpha_only` decode path goes through a numpy matrix search and is not
modelled; every claim about Vigenere decode here uses full-range mode.) -/
def vigenereDecCharFull (k c : Nat) : Option Nat :=
  chrOpt ((((c : Int) - 32) - ((k : Int) - 32)) % 95 + 32)

/-- `VigenereCipher.decode` with `alpha_only=False`. -/
def vigenereDecodeFull (key : List Nat) (s : List Nat) : Option (List Nat) :=
  if s = [] then some s
  else if ¬ domainCheckPasses s then none
  else
    let fk := (repeatList key (s.length / key.length + 1)).map toUpperChar
    optMap (fun p => vigenereDecCharFull p.1 p.2) (fk.zip s)

/-! ## RailFenceCipher (`encoding/ciphers/transposition.py`) -/

/-- The zig-zag walk of `__zig_zag`: at each step the direction is first
recomputed from the current rail (`rails-1` turns down, `0` turns up),
the current rail index is emitted, and the walk moves. -/
def railSeqAux (rails : Nat) : Nat → Nat → Bool → List Nat
  | 0, _, _ => []
  | n + 1, i, inc =>
    let inc2 := if i = rails - 1 then false else if i = 0 then true else inc
    i :: railSeqAux rails n (if inc2 then i + 1 else i - 1) inc2

/-- The rail index assigned to each of the first `len` columns. -/
def railSeq (rails len : Nat) : List Nat := railSeqAux rails len 0 true

/-- `RailFenceCipher.encode`: fill cell `(seq j, j)` with `text[j]`, then
read the whole array row by row; empty cells contribute nothing. -/
def railEncode (rails : Nat) (s : List Nat) : Option (List Nat) :=
  if s = [] then some s
  else if ¬ domainCheckPasses s then none
  else
    some ((List.range rails).flatMap (fun r =>
      ((railSeq rails s.length).zip s).filterMap
        (fun p => if p.1 = r then some p.2 else none)))

/-- `RailFenceCipher.decode`: mark the zig-zag cells, pour the ciphertext
into the marked cells in row-major order, then read the cells back in
column (zig-zag) order. -/
def railDecode (rails : Nat) (s : List Nat) : Option (List Nat) :=
  if s = [] then some s
  else if ¬ domainCheckPasses s then none
  else
    let n := s.length
    let seq := railSeq rails n
    let filled := (List.range rails).flatMap (fun r =>
      (List.range n).filterMap (fun j => if seq.getD j 0 = r then some (r, j) else none))
    let assign := filled.zip s
    some ((List.range n).map (fun j => (assign.lookup (seq.getD j 0, j)).getD 0))

/-! ## ColumnarTranspositionCipher (`encoding/ciphers/transposition.py`) -/

/-- `__is_unique`: no character of the key reappears later in the key. -/
def isUniqueKey : List Nat → Bool
  | [] => true
  | x :: xs => !(xs.contains x) && isUniqueKey xs

/-- One pass of the `__get_order_list` inner loop for the letter `i`:
entries equal to `i` are replaced by the running order counter. -/
def markOrder (i : Nat) : List Nat → Nat → List Nat × Nat
  | [], o => ([], o)
  | x :: xs, o =>
    if x = i then
      let p := markOrder i xs (o + 1)
      (o :: p.1, p.2)
    else
      let p := markOrder i xs o
      (x :: p.1, p.2)

/-- `ColumnarTranspositionCipher.__get_order_list`: scan the letters
`A`..`Z` (codes 65..90) in order, replacing key entries by consecutive
order numbers. -/
def getOrderList (key : List Nat) : List Nat :=
  ((List.range' 65 26).foldl (fun p i => markOrder i p.1 p.2) (key, 0)).1

/-- `ColumnarTranspositionCipher.encode`: pad to a
`ceil(len/len(key)) x len(key)` rectangle, then emit column `j` at output
block `order_list[j]`. -/
def columnarEncode (key : List Nat) (filler : Nat) (s : List Nat) : Option (List Nat) :=
  if s = [] then some s
  else if ¬ domainCheckPasses s then none
  else
    let n := key.length
    let rows := (s.length + n - 1) / n
    let padded := s ++ List.replicate (rows * n - s.length) filler
    let ol := getOrderList key
    some ((List.range n).flatMap (fun i => (List.range n).flatMap (fun j =>
      if ol.getD j 0 = i then (List.range rows).map (fun r => padded.getD (r * n + j) 0)
      else [])))

/-- Python `str.rstrip(f)` for a single strip character. -/
def rstripChar (l : List Nat) (f : Nat) : List Nat :=
  (l.reverse.dropWhile (fun c => c == f)).reverse

/-- `ColumnarTranspositionCipher.decode`: `rows = len(text)//len(key)`,
column `i` of the rectangle is the ciphertext block starting at
`order_list[i]*rows`; flatten row-major and strip trailing filler. -/
def columnarDecode (key : List Nat) (filler : Nat) (s : List Nat) : Option (List Nat) :=
  if s = [] then some s
  else if ¬ domainCheckPasses s then none
  else
    let n := key.length
    let rows := s.length / n
    let ol := getOrderList key
    some (rstripChar ((List.range rows).flatMap (fun j =>
      (List.range n).map (fun i => s.getD (ol.getD i 0 * rows + j) 0))) filler)

/-! ## Claim C1: the domain guard -/

/-- C1 (refuted by the code): the guard every cipher runs is
`if not any(32 <= ord(char) <= 126 for char in text)`, which raises only
when NO character is printable.  On the two-character text with codes
`[65, 1]` — which contains the out-of-domain character `1` — all six
ciphers transform rather than raise, in both directions (the cipher
docstrings promise a raise whenever such a character is contained). -/
theorem domain_guard_accepts_mixed_text :
    (1 < 32 ∧ ¬ inPrintable 1)
    ∧ (caesarEncode 3 false [65, 1]).isSome
    ∧ (caesarDecode 3 false [65, 1]).isSome
    ∧ (atbashEncode false [65, 1]).isSome
    ∧ (atbashDecode false [65, 1]).isSome
    ∧ (affineEncode 3 3 false [65, 1]).isSome
    ∧ (affineDecode 3 3 false [65, 1]).isSome
    ∧ (vigenereEncode [75, 69, 89] false [65, 1]).isSome
    ∧ (vigenereDecodeFull [75, 69, 89] [65, 1]).isSome
    ∧ (railEncode 3 [65, 1]).isSome
    ∧ (railDecode 3 [65, 1]).isSome
    ∧ (columnarEncode [75, 69, 89] 95 [65, 1]).isSome
    ∧ (columnarDecode [75, 69, 89] 95 [65, 1]).isSome := by
  decide

/-! ## Pipeline (`encoding/utils.py`) -/

/-- A pipeline step as `encode` consumes it: an encoder object exposing
fallible `encode` and `decode`.  The step name is carried separately where
it matters (claim C4). -/
structure Step where
  enc : List Nat → Option (List Nat)
  dec : List Nat → Option (List Nat)

/-- `Pipeline.encode`: fold the steps left to right, each output feeding
the next step; a raise anywhere aborts the call. -/
def pipeEncode (steps : List Step) (t : List Nat) : Option (List Nat) :=
  steps.foldl (fun acc p => acc.bind p.enc) (some t)

/-- `Pipeline.decode`: fold the steps in reverse order applying `decode`. -/
def pipeDecode (steps : List Step) (t : List Nat) : Option (List Nat) :=
  steps.reverse.foldl (fun acc p => acc.bind p.dec) (some t)

theorem foldl_bind_none (f : Step → List Nat → Option (List Nat)) (l : List Step) :
    l.foldl (fun acc p => acc.bind (f p)) none = none := by
  induction l with
  | nil => rfl
  | cons p l ih => simpa using ih

theorem foldl_bind_eq (f : Step → List Nat → Option (List Nat)) (l : List Step)
    (o : Option (List Nat)) :
    l.foldl (fun acc p => acc.bind (f p)) o =
      o.bind (fun x => l.foldl (fun acc p => acc.bind (f p)) (some x)) := by
  cases o with
  | none => simpa using foldl_bind_none f l
  | some x => rfl

theorem pipeEncode_concat (l : List Step) (p : Step) (t : List Nat) :
    pipeEncode (l ++ [p]) t = (pipeEncode l t).bind p.enc := by
  unfold pipeEncode
  rw [List.foldl_append]
  rfl

theorem pipeDecode_concat (l : List Step) (p : Step) (t : List Nat) :
    pipeDecode (l ++ [p]) t = (p.dec t).bind (pipeDecode l) := by
  unfold pipeDecode
  rw [List.reverse_append]
  simp only [List.reverse_cons, List.reverse_nil, List.nil_append, List.singleton_append,
    List.foldl_cons, Option.some_bind]
  exact foldl_bind_eq _ _ _

/-- C5: if every step of the pipeline, on the string that actually reaches
it during `encode`, has `decode` undo its `encode`, then the whole pipeline
round-trips: `decode(encode(t)) = t`. -/
theorem pipeline_roundtrip (steps : List Step) (t : List Nat)
    (h : ∀ k, (hk : k < steps.length) → ∀ x,
      pipeEncode (steps.take k) t = some x →
      ((steps.get ⟨k, hk⟩).enc x).bind (steps.get ⟨k, hk⟩).dec = some x) :
    ∃ y, pipeEncode steps t = some y ∧ pipeDecode steps y = some t := by
  induction steps using List.reverseRecOn with
  | nil => exact ⟨t, rfl, rfl⟩
  | append_singleton l p ih =>
    have hl : ∀ k, (hk : k < l.length) → ∀ x,
        pipeEncode (l.take k) t = some x →
        ((l.get ⟨k, hk⟩).enc x).bind (l.get ⟨k, hk⟩).dec = some x := by
      intro k hk x hx
      have hk2 : k < (l ++ [p]).length := by simp; omega
      have htake : (l ++ [p]).take k = l.take k := by
        rw [List.take_append_of_le_length (by omega)]
      have hget : (l ++ [p]).get ⟨k, hk2⟩ = l.get ⟨k, hk⟩ := by
        rw [List.get_eq_getElem, List.get_eq_getElem, List.getElem_append_left]
      have := h k hk2 x (by rw [htake]; exact hx)
      rwa [hget] at this
    obtain ⟨y, hy, hyd⟩ := ih hl
    have hk2 : l.length < (l ++ [p]).length := by simp
    have htake : (l ++ [p]).take l.length = l := by
      rw [List.take_append_of_le_length (by omega), List.take_length]
    have hget : (l ++ [p]).get ⟨l.length, hk2⟩ = p := by
      rw [List.get_eq_getElem, List.getElem_append_right] <;> simp
    have hp := h l.length hk2 y (by rw [htake]; exact hy)
    rw [hget] at hp
    cases hz : p.enc y with
    | none => rw [hz] at hp; simp at hp
    | some z =>
      rw [hz] at hp
      simp only [Option.some_bind] at hp
      refine ⟨z, ?_, ?_⟩
      · rw [pipeEncode_concat, hy, Option.some_bind, hz]
      · rw [pipeDecode_concat, hp, Option.some_bind, hyd]

/-- C5 witness: a two-step pipeline (shift every code up by 1 / down by 1,
then append 33 / drop the last element) round-trips the text `[65]`. -/
theorem pipeline_roundtrip_witness :
    ∃ y, pipeEncode
        [⟨fun l => some (l.map (fun c => c + 1)), fun l => some (l.map (fun c => c - 1))⟩,
         ⟨fun l => some (l ++ [33]), fun l => some (l.dropLast)⟩] [65] = some y
      ∧ pipeDecode
        [⟨fun l => some (l.map (fun c => c + 1)), fun l => some (l.map (fun c => c - 1))⟩,
         ⟨fun l => some (l ++ [33]), fun l => some (l.dropLast)⟩] y = some [65] :=
  pipeline_roundtrip _ [65] (by
    intro k hk x hx
    match k with
    | 0 =>
      simp only [pipeEncode, List.take_zero, List.foldl_nil] at hx
      cases hx
      rfl
    | 1 =>
      simp only [pipeEncode, List.take_succ_cons, List.take_zero, List.foldl_cons,
        List.foldl_nil, Option.some_bind] at hx
      cases hx
      rfl)

/-- Python `==` between a pipeline entry (a tuple) and a stored name
(a str) is always `False`: the two sides have unrelated types, so
`tuple.__eq__` returns `NotImplemented` and the comparison falls back to
identity, which fails.  This is the comparison
`if encoder in self.encoder_names` performs in `__update_encoder_names`. -/
def pyTupleEqStr (_p : Unit × List Nat) (_n : List Nat) : Bool := false

/-- The loop of `Pipeline.__update_encoder_names`: rebuilds the name list,
raising if the current entry is `in` the names collected so far. -/
def updateNamesAux : List (Unit × List Nat) → List (List Nat) → Option (List (List Nat))
  | [], acc => some acc
  | e :: es, acc =>
    if acc.any (fun n => pyTupleEqStr e n) then none
    else updateNamesAux es (acc ++ [e.2])

/-- `Pipeline.__update_encoder_names`, as invoked by the constructor and by
`add_encoders` after extending `self.encoders`. -/
def updateEncoderNames (encoders : List (Unit × List Nat)) : Option (List (List Nat)) :=
  updateNamesAux encoders []

/-- C4 (refuted by the code): constructing a pipeline whose two steps both
carry the name `"a"` (code 97) does not raise — the duplicate check
compares the whole `(encoder, name)` tuple against stored name strings, a
comparison that is always false — and the resulting `encoder_names`
contains the duplicate. -/
theorem pipeline_accepts_duplicate_names :
    updateEncoderNames [((), [97]), ((), [97])] = some [[97], [97]]
    ∧ ¬ ([[97], [97]] : List (List Nat)).Nodup := by
  constructor
  · rfl
  · decide

/-! ## Salt (`encoding/utils.py`) -/

/-- The three valid `position` arguments of `Salt`. -/
inductive SaltPos where
  | front
  | atEnd
  | between

/-- `len(text)` successive draws of `__get_salt` starting from a generator
state, threading the state. -/
def getSaltList {G : Type} (getSalt : G → List Nat × G) : Nat → G → List (List Nat) × G
  | 0, g => ([], g)
  | n + 1, g =>
    let p := getSalt g
    let q := getSaltList getSalt n p.2
    (p.1 :: q.1, q.2)

/-- Python `str.removeprefix`. -/
def removePre (p t : List Nat) : List Nat :=
  if t.take p.length = p then t.drop p.length else t

/-- Python `str.removesuffix`. -/
def removeSuf (p t : List Nat) : List Nat :=
  if t.drop (t.length - p.length) = p ∧ p.length ≤ t.length then
    t.take (t.length - p.length)
  else t

/-- The `while True` loop of `Salt.decode` in `between` mode: keep
`text[i]`, then skip the following salt span, until `text[i]` raises
`IndexError`. -/
def desaltAux {G : Type} (getSalt : G → List Nat × G) (text : List Nat) :
    Nat → G → List Nat × G
  | i, g =>
    if h : i < text.length then
      let p := getSalt g
      let q := desaltAux getSalt text (i + p.1.length + 1) p.2
      (text.get ⟨i, h⟩ :: q.1, q.2)
    else ([], g)
  termination_by i _ => text.length - i

/-- `Salt.encode`: empty text returns immediately; otherwise the generator
is rewound to the construction-time snapshot (`random.setstate`) before any
salt is drawn, so the incoming generator state `g` is never consulted. -/
def saltEncode {G : Type} (getSalt : G → List Nat × G) (snap : G) (pos : SaltPos)
    (text : List Nat) (g : G) : List Nat × G :=
  if text = [] then (text, g)
  else
    match pos with
    | .front => let p := getSalt snap; (p.1 ++ text, p.2)
    | .atEnd => let p := getSalt snap; (text ++ p.1, p.2)
    | .between =>
      let q := getSaltList getSalt text.length snap
      ((List.zipWith (fun c s => c :: s) text q.1).flatten, q.2)

/-- `Salt.decode`: same rewind-then-replay structure. -/
def saltDecode {G : Type} (getSalt : G → List Nat × G) (snap : G) (pos : SaltPos)
    (text : List Nat) (g : G) : List Nat × G :=
  if text = [] then (text, g)
  else
    match pos with
    | .front => let p := getSalt snap; (removePre p.1 text, p.2)
    | .atEnd => let p := getSalt snap; (removeSuf p.1 text, p.2)
    | .between => desaltAux getSalt text 0 snap

/-- C9: because both `Salt.encode` and `Salt.decode` restore the generator
to the construction-time snapshot before drawing anything, their outputs do
not depend on the incoming generator state: any two calls on the same text
return the same result no matter what ran in between. -/
theorem salt_deterministic {G : Type} (getSalt : G → List Nat × G) (snap : G)
    (pos : SaltPos) (text : List Nat) (g g' : G) :
    (saltEncode getSalt snap pos text g).1 = (saltEncode getSalt snap pos text g').1
    ∧ (saltDecode getSalt snap pos text g).1 = (saltDecode getSalt snap pos text g').1 := by
  unfold saltEncode saltDecode
  by_cases h : text = []
  · simp [h]
  · rw [if_neg h, if_neg h, if_neg h, if_neg h]
    exact ⟨rfl, rfl⟩

/-! ## The order list of ColumnarTransposition: closed form -/

/-- Recursive description of one `markOrder` pass (proof helper). -/
def markMap (i : Nat) : List Nat → Nat → List Nat
  | [], _ => []
  | x :: xs, o => if x = i then o :: markMap i xs (o + 1) else x :: markMap i xs o

theorem markOrder_eq (i : Nat) :
    ∀ (lst : List Nat) (o : Nat),
      markOrder i lst o = (markMap i lst o, o + lst.countP (fun x => x = i)) := by
  intro lst
  induction lst with
  | nil => intro o; simp [markOrder, markMap]
  | cons x xs ih =>
    intro o
    by_cases hx : x = i
    · simp [markOrder, markMap, if_pos hx, ih, List.countP_cons, hx]
      all_goals omega
    · simp [markOrder, markMap, if_neg hx, ih, List.countP_cons, hx]
      all_goals omega

theorem markMap_eq_self (i : Nat) :
    ∀ (lst : List Nat), lst.countP (fun x => x = i) = 0 → ∀ o, markMap i lst o = lst := by
  intro lst
  induction lst with
  | nil => intro _ o; rfl
  | cons x xs ih =>
    intro h o
    rw [List.countP_cons] at h
    have hx : ¬ x = i := by
      intro hc
      rw [if_pos (by simp [hc])] at h
      omega
    simp only [markMap, if_neg hx]
    rw [ih (by rw [if_neg (by simp [hx])] at h; omega) o]

theorem markMap_eq_map (i : Nat) :
    ∀ (lst : List Nat), lst.countP (fun x => x = i) ≤ 1 → ∀ o,
      markMap i lst o = lst.map (fun x => if x = i then o else x) := by
  intro lst
  induction lst with
  | nil => intro _ o; rfl
  | cons x xs ih =>
    intro h o
    rw [List.countP_cons] at h
    by_cases hx : x = i
    · rw [if_pos (by simp [hx])] at h
      simp only [markMap, if_pos hx, List.map_cons, if_pos hx]
      have hzero : xs.countP (fun x => x = i) = 0 := by omega
      rw [markMap_eq_self i xs hzero]
      have hisnt : ∀ y ∈ xs, (if y = i then o else y) = y := by
        intro y hy
        rw [if_neg]
        intro hyi
        have : 0 < xs.countP (fun x => decide (x = i)) :=
          List.countP_pos_iff.mpr ⟨y, hy, by simp [hyi]⟩
        omega
      congr 1
      symm
      calc xs.map (fun y => if y = i then o else y)
          = xs.map id := List.map_congr_left (fun y hy => by simpa using hisnt y hy)
        _ = xs := List.map_id xs
    · rw [if_neg (by simp [hx])] at h
      simp only [markMap, if_neg hx, List.map_cons, if_neg hx]
      rw [ih (by omega) o]

/-- The value the whole scan leaves at a key entry `c` once all letters
below `b` have been processed. -/
def stepMapAux (key : List Nat) (b c : Nat) : Nat :=
  if c < b then key.countP (fun x => decide (x < c)) else c

theorem countP_lt_succ (i : Nat) :
    ∀ l : List Nat,
      l.countP (fun x => decide (x < i + 1)) =
        l.countP (fun x => decide (x < i)) + l.countP (fun x => decide (x = i)) := by
  intro l
  induction l with
  | nil => rfl
  | cons x xs ih =>
    simp only [List.countP_cons, ih]
    by_cases h2 : x = i
    · have e1 : (decide (x < i + 1)) = true := by
        simp only [decide_eq_true_eq]
        omega
      have e2 : (decide (x < i)) = false := by
        simp only [decide_eq_false_iff_not]
        omega
      have e3 : (decide (x = i)) = true := by
        simp only [decide_eq_true_eq]
        omega
      rw [e1, e2, e3]
      simp
      all_goals omega
    · by_cases h1 : x < i
      · have e1 : (decide (x < i + 1)) = true := by
          simp only [decide_eq_true_eq]
          omega
        have e2 : (decide (x < i)) = true := by
          simp only [decide_eq_true_eq]
          omega
        have e3 : (decide (x = i)) = false := by
          simp only [decide_eq_false_iff_not]
          omega
        rw [e1, e2, e3]
        simp
        all_goals omega
      · have e1 : (decide (x < i + 1)) = false := by
          simp only [decide_eq_false_iff_not]
          omega
        have e2 : (decide (x < i)) = false := by
          simp only [decide_eq_false_iff_not]
          omega
        have e3 : (decide (x = i)) = false := by
          simp only [decide_eq_false_iff_not]
          omega
        rw [e1, e2, e3]
        simp
        all_goals omega

theorem countP_eq_le_one_of_nodup (v : Nat) :
    ∀ l : List Nat, l.Nodup → l.countP (fun c => c = v) ≤ 1 := by
  intro l
  induction l with
  | nil => intro _; simp
  | cons x xs ih =>
    intro hnd
    rw [List.countP_cons]
    rcases List.nodup_cons.mp hnd with ⟨hx, hxs⟩
    by_cases hv : x = v
    · rw [if_pos (by simp [hv])]
      have hzero : xs.countP (fun c => decide (c = v)) = 0 := by
        rw [List.countP_eq_zero]
        intro c hc
        simp only [decide_eq_true_eq]
        intro hcv
        exact hx (by rw [hv, ← hcv]; exact hc)
      omega
    · rw [if_neg (by simp [hv])]
      have := ih hxs
      omega

theorem length_le_of_nodup_letters (key : List Nat) (hnd : key.Nodup)
    (hb : ∀ c ∈ key, 65 ≤ c ∧ c ≤ 90) : key.length ≤ 26 := by
  have hcard : key.toFinset.card = key.length := List.toFinset_card_of_nodup hnd
  have hsub : key.toFinset ⊆ Finset.Icc 65 90 := by
    intro c hc
    rcases hb c (List.mem_toFinset.mp hc) with ⟨h1, h2⟩
    exact Finset.mem_Icc.mpr ⟨h1, h2⟩
  have := Finset.card_le_card hsub
  rw [hcard] at this
  simpa using this

theorem rank_lt_length (key : List Nat) (c : Nat) (hc : c ∈ key) :
    key.countP (fun x => decide (x < c)) < key.length := by
  induction key with
  | nil => cases hc
  | cons x xs ih =>
    simp only [List.countP_cons, List.length_cons]
    rcases List.mem_cons.mp hc with rfl | hmem
    · rw [if_neg (by simp)]
      have hle := List.countP_le_length (l := xs) (p := fun x => decide (x < c))
      omega
    · have hih := ih hmem
      by_cases h : x < c
      · rw [if_pos (by simp [h])]
        omega
      · rw [if_neg (by simp [h])]
        omega

/-- The fold of `__get_order_list` computed in closed form: each key
entry is replaced by the number of strictly smaller key entries. -/
theorem getOrderList_eq (key : List Nat) (hnd : key.Nodup)
    (hb : ∀ c ∈ key, 65 ≤ c ∧ c ≤ 90) :
    getOrderList key = key.map (fun c => key.countP (fun x => decide (x < c))) := by
  have hlen := length_le_of_nodup_letters key hnd hb
  have hinv : ∀ t, t ≤ 26 →
      (List.range' 65 t).foldl (fun p i => markOrder i p.1 p.2) (key, 0) =
        (key.map (stepMapAux key (65 + t)),
          key.countP (fun x => decide (x < 65 + t))) := by
    intro t
    induction t with
    | zero =>
      intro _
      simp only [List.range'_zero, List.foldl_nil, Prod.mk.injEq]
      constructor
      · symm
        have hid : ∀ c ∈ key, stepMapAux key 65 c = c := by
          intro c hc
          unfold stepMapAux
          rw [if_neg (by have := hb c hc; omega)]
        calc key.map (stepMapAux key 65) = key.map id :=
              List.map_congr_left (fun c hc => by simpa using hid c hc)
          _ = key := List.map_id key
      · symm
        rw [List.countP_eq_zero]
        intro c hc
        have := hb c hc
        simp only [decide_eq_true_eq]
        omega
    | succ t ih =>
      intro ht
      rw [List.range'_concat, List.foldl_append, ih (by omega), List.foldl_cons,
        List.foldl_nil]
      rw [show (65 + 1 * t : Nat) = 65 + t from by omega]
      rw [markOrder_eq]
      have hcnt : (key.map (stepMapAux key (65 + t))).countP (fun x => x = 65 + t) =
          key.countP (fun c => decide (c = 65 + t)) := by
        rw [List.countP_map]
        refine List.countP_congr ?_
        intro c hc
        simp only [Function.comp_apply, decide_eq_true_eq]
        unfold stepMapAux
        by_cases hlt : c < 65 + t
        · rw [if_pos hlt]
          have h1 := rank_lt_length key c hc
          constructor
          · intro h; omega
          · intro h; omega
        · rw [if_neg hlt]
      have hle1 : key.countP (fun c => decide (c = 65 + t)) ≤ 1 :=
        countP_eq_le_one_of_nodup (65 + t) key hnd
      simp only [Prod.mk.injEq]
      constructor
      · rw [markMap_eq_map _ _ (by rw [hcnt]; exact hle1), List.map_map]
        refine List.map_congr_left ?_
        intro c hc
        simp only [Function.comp_apply]
        unfold stepMapAux
        by_cases h2 : c < 65 + t
        · have hrank := rank_lt_length key c hc
          rw [if_pos h2]
          rw [if_neg (show ¬ (key.countP (fun x => decide (x < c)) = 65 + t) by omega)]
          rw [if_pos (show c < 65 + (t + 1) by omega)]
        · by_cases h1 : c = 65 + t
          · rw [if_neg h2, if_pos h1]
            rw [if_pos (show c < 65 + (t + 1) by omega)]
            rw [h1]
          · rw [if_neg h2, if_neg h1]
            rw [if_neg (show ¬ c < 65 + (t + 1) by omega)]
      · rw [hcnt]
        rw [show 65 + (t + 1) = (65 + t) + 1 from rfl]
        exact (countP_lt_succ (65 + t) key).symm
  have h26 := hinv 26 (by omega)
  unfold getOrderList
  rw [h26]
  refine List.map_congr_left ?_
  intro c hc
  unfold stepMapAux
  rw [if_pos (by have := hb c hc; omega)]

/-! ## Permutation facts about the order list -/

theorem countP_lt_of_witness (p q : Nat → Bool) :
    ∀ l : List Nat, (∀ x ∈ l, p x = true → q x = true) →
      ∀ w, w ∈ l → q w = true → p w = false → l.countP p < l.countP q := by
  intro l
  induction l with
  | nil => intro _ w hw; cases hw
  | cons x xs ih =>
    intro hmono w hw hq hp
    rw [List.countP_cons, List.countP_cons]
    have hxs : xs.countP p ≤ xs.countP q :=
      List.countP_mono_left (fun a ha hpa => hmono a (by simp [ha]) hpa)
    rcases List.mem_cons.mp hw with rfl | hmem
    · rw [if_neg (by simp [hp]), if_pos (by simp [hq])]
      omega
    · have := ih (fun a ha => hmono a (by simp [ha])) w hmem hq hp
      by_cases hx : p x = true
      · rw [if_pos (by simp [hx]), if_pos (by simp [hmono x (by simp) hx])]
        omega
      · rw [if_neg (by simp [Bool.not_eq_true] at hx; simp [hx])]
        have h0 : (0 : Nat) ≤ if q x = true then 1 else 0 := by omega
        split <;> omega

theorem rank_injOn (key : List Nat) :
    ∀ c ∈ key, ∀ c2 ∈ key,
      key.countP (fun x => decide (x < c)) = key.countP (fun x => decide (x < c2)) →
        c = c2 := by
  have hmono : ∀ c c2, c ∈ key → c < c2 →
      key.countP (fun x => decide (x < c)) < key.countP (fun x => decide (x < c2)) := by
    intro c c2 hc hlt
    refine countP_lt_of_witness _ _ key ?_ c hc ?_ ?_
    · intro x _ hx
      simp only [decide_eq_true_eq] at hx ⊢
      omega
    · simp only [decide_eq_true_eq]
      omega
    · simp only [decide_eq_false_iff_not]
      omega
  intro c hc c2 hc2 heq
  rcases Nat.lt_trichotomy c c2 with h | h | h
  · have := hmono c c2 hc h
    omega
  · exact h
  · have := hmono c2 c hc2 h
    omega

theorem orderList_length (key : List Nat) (hnd : key.Nodup)
    (hb : ∀ c ∈ key, 65 ≤ c ∧ c ≤ 90) : (getOrderList key).length = key.length := by
  rw [getOrderList_eq key hnd hb, List.length_map]

theorem orderList_nodup (key : List Nat) (hnd : key.Nodup)
    (hb : ∀ c ∈ key, 65 ≤ c ∧ c ≤ 90) : (getOrderList key).Nodup := by
  rw [getOrderList_eq key hnd hb]
  exact List.Nodup.map_on (fun c hc c2 hc2 h => rank_injOn key c hc c2 hc2 h) hnd

theorem orderList_lt (key : List Nat) (hnd : key.Nodup)
    (hb : ∀ c ∈ key, 65 ≤ c ∧ c ≤ 90) :
    ∀ v ∈ getOrderList key, v < key.length := by
  rw [getOrderList_eq key hnd hb]
  intro v hv
  rcases List.mem_map.mp hv with ⟨c, hc, rfl⟩
  exact rank_lt_length key c hc

theorem orderList_mem (key : List Nat) (hnd : key.Nodup)
    (hb : ∀ c ∈ key, 65 ≤ c ∧ c ≤ 90) :
    ∀ r, r < key.length → r ∈ getOrderList key := by
  intro r hr
  set ol := getOrderList key with hol
  have hnd2 : ol.Nodup := orderList_nodup key hnd hb
  have hlen : ol.length = key.length := orderList_length key hnd hb
  have hsub : ol.toFinset ⊆ Finset.range key.length := by
    intro v hv
    exact Finset.mem_range.mpr (orderList_lt key hnd hb v (List.mem_toFinset.mp hv))
  have hcard : ol.toFinset.card = key.length := by
    rw [List.toFinset_card_of_nodup hnd2, hlen]
  have heq : ol.toFinset = Finset.range key.length :=
    Finset.eq_of_subset_of_card_le hsub (by simp [hcard])
  have : r ∈ ol.toFinset := by
    rw [heq]
    exact Finset.mem_range.mpr hr
  exact List.mem_toFinset.mp this

/-! ## Flat-map indexing -/

theorem flatMap_congr_fn (f g : Nat → List α) :
    ∀ l : List Nat, (∀ x ∈ l, f x = g x) → l.flatMap f = l.flatMap g := by
  intro l
  induction l with
  | nil => intro _; rfl
  | cons x xs ih =>
    intro h
    simp only [List.flatMap_cons]
    rw [h x (by simp), ih (fun y hy => h y (by simp [hy]))]

theorem flatMap_eq_nil_of_false {α : Type} (P : Nat → Prop) [DecidablePred P]
    (f : Nat → List α) :
    ∀ l : List Nat, (∀ j ∈ l, ¬ P j) →
      l.flatMap (fun j => if P j then f j else []) = [] := by
  intro l
  induction l with
  | nil => intro _; rfl
  | cons x xs ih =>
    intro h
    simp only [List.flatMap_cons, if_neg (h x (by simp)), List.nil_append]
    exact ih (fun y hy => h y (by simp [hy]))

theorem flatMap_single {α : Type} (P : Nat → Prop) [DecidablePred P] (f : Nat → List α) :
    ∀ (l : List Nat), l.Nodup → ∀ j0, j0 ∈ l → P j0 → (∀ j ∈ l, j ≠ j0 → ¬ P j) →
      l.flatMap (fun j => if P j then f j else []) = f j0 := by
  intro l
  induction l with
  | nil => intro _ j0 hj; cases hj
  | cons x xs ih =>
    intro hnd j0 hj hP ho
    rcases List.nodup_cons.mp hnd with ⟨hx, hxs⟩
    simp only [List.flatMap_cons]
    rcases List.mem_cons.mp hj with rfl | hmem
    · rw [if_pos hP, flatMap_eq_nil_of_false P f xs
        (fun j hjx => ho j (by simp [hjx]) (by rintro rfl; exact hx hjx)),
        List.append_nil]
    · have hxj : x ≠ j0 := by
        rintro rfl
        exact hx hmem
      rw [if_neg (ho x (by simp) hxj), List.nil_append]
      exact ih hxs j0 hmem hP (fun j hjx => ho j (by simp [hjx]))

theorem flatMap_length_const {α : Type} (g : Nat → List α) :
    ∀ (m L : Nat), (∀ i < m, (g i).length = L) →
      ((List.range m).flatMap g).length = m * L := by
  intro m
  induction m with
  | zero => intro L _; simp
  | succ m ih =>
    intro L hg
    rw [List.range_succ, List.flatMap_append, List.length_append,
      ih L (fun i hi => hg i (by omega))]
    simp only [List.flatMap_cons, List.flatMap_nil, List.append_nil]
    rw [hg m (by omega)]
    ring

theorem flatMap_block_getD {α : Type} (g : Nat → List α) (d : α) :
    ∀ (m L : Nat), (∀ i < m, (g i).length = L) →
      ∀ q r, q < m → r < L →
        ((List.range m).flatMap g).getD (q * L + r) d = (g q).getD r d := by
  intro m
  induction m with
  | zero => intro L _ q r hq; omega
  | succ m ih =>
    intro L hg q r hq hr
    rw [List.range_succ, List.flatMap_append]
    simp only [List.flatMap_cons, List.flatMap_nil, List.append_nil]
    have hlen : ((List.range m).flatMap g).length = m * L :=
      flatMap_length_const g m L (fun i hi => hg i (by omega))
    by_cases hq2 : q < m
    · have hidx : q * L + r < m * L := by
        have h1 : q * L + r < (q + 1) * L := by
          have : (q + 1) * L = q * L + L := by ring
          omega
        have h2 : (q + 1) * L ≤ m * L := Nat.mul_le_mul_right L (by omega)
        omega
      rw [List.getD_append _ _ _ _ (by omega)]
      exact ih L (fun i hi => hg i (by omega)) q r hq2 hr
    · have hq3 : q = m := by omega
      subst hq3
      rw [List.getD_append_right _ _ _ _ (by omega : ((List.range q).flatMap g).length ≤ q * L + r)]
      congr 1
      omega

/-- A list of length `rows * n` is the row-by-row flattening of its
`getD` entries. -/
theorem eq_flatMap_rows {α : Type} (d : α) (n : Nat) (hn : 0 < n) :
    ∀ (rows : Nat) (l : List α), l.length = rows * n →
      l = (List.range rows).flatMap
        (fun j => (List.range n).map (fun i => l.getD (j * n + i) d)) := by
  intro rows
  induction rows with
  | zero =>
    intro l hl
    simp at hl
    simp [hl]
  | succ rows ih =>
    intro l hl
    have hlen1 : n ≤ l.length := by
      have : rows * n + n = (rows + 1) * n := by ring
      omega
    have htake : (List.range n).map (fun i => l.getD (0 * n + i) d) = l.take n := by
      refine List.ext_getElem (by simp; omega) ?_
      intro k h1 h2
      simp only [List.getElem_map, List.getElem_range, List.getElem_take]
      have hk : k < n := by simpa using h1
      rw [List.getD_eq_getElem l d (by omega)]
      congr 1
      omega
    have hdroplen : (l.drop n).length = rows * n := by
      rw [List.length_drop]
      have : (rows + 1) * n = rows * n + n := by ring
      omega
    have hdrop := ih (l.drop n) hdroplen
    rw [List.range_succ_eq_map, List.flatMap_cons, htake]
    have hmapped : ((List.range rows).map Nat.succ).flatMap
        (fun j => (List.range n).map (fun i => l.getD (j * n + i) d)) =
        (List.range rows).flatMap
          (fun j => (List.range n).map (fun i => (l.drop n).getD (j * n + i) d)) := by
      rw [List.flatMap_map]
      refine flatMap_congr_fn _ _ _ ?_
      intro j _
      refine List.map_congr_left ?_
      intro i _
      have hgd : (l.drop n).getD (j * n + i) d = l.getD (n + (j * n + i)) d := by
        rcases Nat.lt_or_ge (j * n + i) (l.drop n).length with hlt | hge
        · rw [List.getD_eq_getElem _ _ hlt, List.getD_eq_getElem _ _
            (by rw [List.length_drop] at hlt; omega), List.getElem_drop]
        · rw [List.getD_eq_default _ _ hge, List.getD_eq_default _ _
            (by rw [List.length_drop] at hge; omega)]
      rw [hgd]
      congr 1
      simp only [Nat.succ_eq_add_one]
      ring
    rw [hmapped, ← hdrop, List.take_append_drop]

/-! ## rstrip of the padded rectangle -/

theorem rstrip_pad (s : List Nat) (f : Nat) (m : Nat) (h : s.getLast? ≠ some f) :
    rstripChar (s ++ List.replicate m f) f = s := by
  unfold rstripChar
  rw [List.reverse_append, List.reverse_replicate]
  have hdw : ∀ k, (List.replicate k f ++ s.reverse).dropWhile (fun c => c == f) =
      s.reverse.dropWhile (fun c => c == f) := by
    intro k
    induction k with
    | zero => rfl
    | succ k ih =>
      rw [List.replicate_succ, List.cons_append, List.dropWhile_cons_of_pos (by simp)]
      exact ih
  rw [hdw]
  cases hsr : s.reverse with
  | nil =>
    have : s = [] := by simpa using congrArg List.reverse hsr
    simp [this]
  | cons a t =>
    have hhead : s.getLast? = some a := by
      rw [← List.head?_reverse, hsr]
      rfl
    have haf : (a == f) = false := by
      simp only [beq_eq_false_iff_ne, ne_eq]
      intro hc
      exact h (by rw [hhead, hc])
    rw [List.dropWhile_cons_of_neg (by simp [haf]), ← hsr, List.reverse_reverse]

theorem getD_map_range {α : Type} (h : Nat → α) (m j : Nat) (hj : j < m) (d : α) :
    ((List.range m).map h).getD j d = h j := by
  rw [List.getD_eq_getElem ((List.range m).map h) d (by simp [hj])]
  rw [List.getElem_map, List.getElem_range]

/-! ## The transposition rectangle inverts -/

/-- Block `i` of the ciphertext (the inner loop over `j` with the
`order_list[j] == i` filter) is exactly the column whose order number
is `i`. -/
theorem orderCol_spec (rows n : Nat) (ol padded : List Nat)
    (holen : ol.length = n) (hond : ol.Nodup) (homem : ∀ r, r < n → r ∈ ol)
    (i : Nat) (hi : i < n) :
    (List.range n).flatMap (fun j2 => if ol.getD j2 0 = i then
        (List.range rows).map (fun r => padded.getD (r * n + j2) 0)
      else []) =
    (List.range rows).map (fun r => padded.getD (r * n + ol.indexOf i) 0) := by
  have hmem : i ∈ ol := homem i hi
  have hidx : ol.indexOf i < n := by
    rw [← holen]
    exact List.indexOf_lt_length.mpr hmem
  refine flatMap_single (fun j2 => ol.getD j2 0 = i) _ (List.range n) (List.nodup_range n)
    (ol.indexOf i) (List.mem_range.mpr hidx) ?_ ?_
  · show ol.getD (ol.indexOf i) 0 = i
    rw [List.getD_eq_getElem ol 0 (show ol.indexOf i < ol.length by omega)]
    have hlt2 : ol.indexOf i < ol.length := by omega
    exact List.getElem_indexOf hlt2
  · intro j hj hne hcontra
    have hjn : j < n := List.mem_range.mp hj
    rw [List.getD_eq_getElem ol 0 (show j < ol.length by omega)] at hcontra
    have hlt2 : ol.indexOf i < ol.length := by omega
    have heq2 : ol[j] = ol[ol.indexOf i] := by
      rw [hcontra, List.getElem_indexOf hlt2]
    exact hne ((hond.getElem_inj_iff).mp heq2)

/-- Length of the full ciphertext expression. -/
theorem transpose_ct_length (rows n : Nat) (ol padded : List Nat)
    (holen : ol.length = n) (hond : ol.Nodup) (homem : ∀ r, r < n → r ∈ ol) :
    ((List.range n).flatMap (fun i2 => (List.range n).flatMap (fun j2 =>
      if ol.getD j2 0 = i2 then
        (List.range rows).map (fun r => padded.getD (r * n + j2) 0)
      else []))).length = n * rows := by
  refine flatMap_length_const _ n rows ?_
  intro i hi
  rw [orderCol_spec rows n ol padded holen hond homem i hi, List.length_map,
    List.length_range]

/-- The head of the padded plaintext occurs in the ciphertext. -/
theorem transpose_ct_head (rows n : Nat) (ol padded : List Nat)
    (hn : 0 < n) (hrows : 0 < rows) (holen : ol.length = n) (hond : ol.Nodup)
    (holt : ∀ v ∈ ol, v < n) (homem : ∀ r, r < n → r ∈ ol) :
    padded.getD 0 0 ∈ (List.range n).flatMap (fun i2 => (List.range n).flatMap (fun j2 =>
      if ol.getD j2 0 = i2 then
        (List.range rows).map (fun r => padded.getD (r * n + j2) 0)
      else [])) := by
  have h0 : ol.getD 0 0 ∈ ol := by
    rw [List.getD_eq_getElem ol 0 (show 0 < ol.length by omega)]
    exact List.getElem_mem _
  have hv : ol.getD 0 0 < n := holt _ h0
  have hio0 : ol.indexOf (ol.getD 0 0) = 0 := by
    have hlt : ol.indexOf (ol.getD 0 0) < ol.length := List.indexOf_lt_length.mpr h0
    have heq : ol[ol.indexOf (ol.getD 0 0)] = ol.getD 0 0 := List.getElem_indexOf hlt
    have heq2 : ol[ol.indexOf (ol.getD 0 0)] = ol[0] := by
      rw [heq]
      exact List.getD_eq_getElem ol 0 (show 0 < ol.length by omega)
    exact (hond.getElem_inj_iff).mp heq2
  refine List.mem_flatMap.mpr ⟨ol.getD 0 0, List.mem_range.mpr hv, ?_⟩
  rw [orderCol_spec rows n ol padded holen hond homem _ hv, hio0]
  refine List.mem_map.mpr ⟨0, List.mem_range.mpr hrows, ?_⟩
  norm_num

theorem transpose_inverse (rows n : Nat) (ol : List Nat) (padded : List Nat)
    (hn : 0 < n) (holen : ol.length = n) (hond : ol.Nodup)
    (holt : ∀ v ∈ ol, v < n) (homem : ∀ r, r < n → r ∈ ol)
    (hplen : padded.length = rows * n) :
    (List.range rows).flatMap (fun j => (List.range n).map (fun i =>
        ((List.range n).flatMap (fun i2 => (List.range n).flatMap (fun j2 =>
          if ol.getD j2 0 = i2 then
            (List.range rows).map (fun r => padded.getD (r * n + j2) 0)
          else []))).getD (ol.getD i 0 * rows + j) 0)) = padded := by
  have hgetm : ∀ i, i < n → ol.getD i 0 ∈ ol := by
    intro i hi
    rw [List.getD_eq_getElem ol 0 (show i < ol.length by omega)]
    exact List.getElem_mem _
  have hio : ∀ i, i < n → ol.indexOf (ol.getD i 0) = i := by
    intro i hi
    have hmem := hgetm i hi
    have hlt : ol.indexOf (ol.getD i 0) < ol.length := List.indexOf_lt_length.mpr hmem
    have heq : ol[ol.indexOf (ol.getD i 0)] = ol.getD i 0 := List.getElem_indexOf hlt
    have heq2 : ol[ol.indexOf (ol.getD i 0)] = ol[i] := by
      rw [heq]
      exact List.getD_eq_getElem ol 0 (show i < ol.length by omega)
    exact (hond.getElem_inj_iff).mp heq2
  have hF := fun i hi => orderCol_spec rows n ol padded holen hond homem i hi
  have hFlen : ∀ i, i < n →
      ((List.range n).flatMap (fun j2 => if ol.getD j2 0 = i then
          (List.range rows).map (fun r => padded.getD (r * n + j2) 0)
        else [])).length = rows := by
    intro i hi
    rw [hF i hi, List.length_map, List.length_range]
  have hidxval : ∀ i j, i < n → j < rows →
      ((List.range n).flatMap (fun i2 => (List.range n).flatMap (fun j2 =>
          if ol.getD j2 0 = i2 then
            (List.range rows).map (fun r => padded.getD (r * n + j2) 0)
          else []))).getD (ol.getD i 0 * rows + j) 0 = padded.getD (j * n + i) 0 := by
    intro i j hi hj
    have hq : ol.getD i 0 < n := holt _ (hgetm i hi)
    rw [flatMap_block_getD _ 0 n rows (fun i2 hi2 => hFlen i2 hi2) (ol.getD i 0) j hq hj]
    rw [hF _ hq, hio i hi]
    exact getD_map_range _ rows j hj 0
  calc (List.range rows).flatMap (fun j => (List.range n).map (fun i =>
        ((List.range n).flatMap (fun i2 => (List.range n).flatMap (fun j2 =>
          if ol.getD j2 0 = i2 then
            (List.range rows).map (fun r => padded.getD (r * n + j2) 0)
          else []))).getD (ol.getD i 0 * rows + j) 0))
      = (List.range rows).flatMap (fun j => (List.range n).map (fun i =>
          padded.getD (j * n + i) 0)) := by
        refine flatMap_congr_fn _ _ _ ?_
        intro j hj
        refine List.map_congr_left ?_
        intro i hi
        exact hidxval i j (List.mem_range.mp hi) (List.mem_range.mp hj)
    _ = padded := (eq_flatMap_rows 0 n hn rows padded hplen).symm

/-- C6 counterexample: with key "AB" (codes 65, 66), filler 95 and the
in-domain plaintext "x_" (codes 120, 95) — whose last character equals the
filler — encode followed by decode returns "x", not "x_": the rstrip at
the end of decode also eats genuine trailing plaintext. -/
theorem columnar_trailing_filler_lost :
    (columnarEncode [65, 66] 95 [120, 95]).bind (columnarDecode [65, 66] 95)
      = some [120]
    ∧ [120] ≠ [120, 95] := by
  refine ⟨by decide, by decide⟩

set_option maxHeartbeats 1000000 in
/-- C6 (amended: the plaintext must not end with the filler character):
for a nonempty key of unique uppercase letters and in-domain text not
ending with the filler, decode(encode(s)) = s. -/
theorem columnar_roundtrip (key : List Nat) (filler : Nat) (s : List Nat)
    (hne : key ≠ []) (hnd : key.Nodup) (hb : ∀ c ∈ key, 65 ≤ c ∧ c ≤ 90)
    (hs : ∀ c ∈ s, 32 ≤ c ∧ c ≤ 126) (hlast : s.getLast? ≠ some filler) :
    (columnarEncode key filler s).bind (columnarDecode key filler) = some s := by
  by_cases hsnil : s = []
  · subst hsnil
    simp [columnarEncode, columnarDecode]
  have hpass : domainCheckPasses s = true := by
    cases s with
    | nil => exact absurd rfl hsnil
    | cons a l => exact domainCheckPasses_cons a l (hs a (by simp))
  have hn : 0 < key.length := List.length_pos.mpr hne
  have hslen : 0 < s.length := List.length_pos.mpr hsnil
  set rows := (s.length + key.length - 1) / key.length with hrowsdef
  have hdm := Nat.div_add_mod (s.length + key.length - 1) key.length
  have hmlt := Nat.mod_lt (s.length + key.length - 1) hn
  have hcomm : rows * key.length = key.length * rows := Nat.mul_comm _ _
  have hdm2 : key.length * rows + (s.length + key.length - 1) % key.length
      = s.length + key.length - 1 := by
    rw [hrowsdef]
    exact hdm
  have hle : s.length ≤ rows * key.length := by omega
  have hrpos : 0 < rows := by
    rw [hrowsdef]
    exact (Nat.one_le_div_iff hn).mpr (by omega)
  set PD := s ++ List.replicate (rows * key.length - s.length) filler with hPD
  have hplen : PD.length = rows * key.length := by
    rw [hPD, List.length_append, List.length_replicate]
    omega
  set ol := getOrderList key with hol
  have holen : ol.length = key.length := orderList_length key hnd hb
  have hond : ol.Nodup := orderList_nodup key hnd hb
  have holt : ∀ v ∈ ol, v < key.length := orderList_lt key hnd hb
  have homem : ∀ r, r < key.length → r ∈ ol := orderList_mem key hnd hb
  set CT := (List.range key.length).flatMap (fun i => (List.range key.length).flatMap
    (fun j => if ol.getD j 0 = i then
        (List.range rows).map (fun r => PD.getD (r * key.length + j) 0)
      else [])) with hCT
  have henc : columnarEncode key filler s = some CT := by
    unfold columnarEncode
    rw [if_neg hsnil, if_neg (by simp [hpass])]
  have hctlen : CT.length = key.length * rows := by
    rw [hCT]
    exact transpose_ct_length rows key.length ol PD holen hond homem
  have hctpos : 0 < CT.length := by
    rw [hctlen]
    exact Nat.mul_pos hn hrpos
  have hctnil : ¬ CT = [] := List.length_pos.mp hctpos
  have hhead : PD.getD 0 0 ∈ CT := by
    rw [hCT]
    exact transpose_ct_head rows key.length ol PD hn hrpos holen hond holt homem
  have hheadval : PD.getD 0 0 ∈ s := by
    rw [hPD]
    cases s with
    | nil => exact absurd rfl hsnil
    | cons a l =>
      simp only [List.cons_append, List.getD_cons_zero]
      exact List.mem_cons_self a l
  have hctpass : domainCheckPasses CT = true := by
    refine List.any_eq_true.mpr ⟨PD.getD 0 0, hhead, ?_⟩
    have := hs _ hheadval
    simp only [inPrintable, Bool.and_eq_true, decide_eq_true_eq]
    omega
  rw [henc, Option.some_bind]
  unfold columnarDecode
  rw [if_neg hctnil, if_neg (by simp [hctpass])]
  show some (rstripChar ((List.range (CT.length / key.length)).flatMap
      (fun j => (List.range key.length).map
        (fun i => CT.getD ((getOrderList key).getD i 0 * (CT.length / key.length) + j) 0)))
      filler) = some s
  have hq : CT.length / key.length = rows := by
    rw [hctlen]
    exact Nat.mul_div_cancel_left rows hn
  rw [hq]
  refine congrArg some ?_
  have hinner : (List.range rows).flatMap (fun j => (List.range key.length).map
      (fun i => CT.getD ((getOrderList key).getD i 0 * rows + j) 0)) = PD := by
    rw [hCT, ← hol]
    exact transpose_inverse rows key.length ol PD hn holen hond holt homem
      (by rw [hplen, hcomm])
  rw [← hol, hinner, hPD]
  exact rstrip_pad s filler (rows * key.length - s.length) hlast

/-- C6 witness: key "AB" (65, 66), filler 95, plaintext "xyz"
(120, 121, 122). -/
theorem columnar_roundtrip_witness :
    (columnarEncode [65, 66] 95 [120, 121, 122]).bind (columnarDecode [65, 66] 95)
      = some [120, 121, 122] :=
  columnar_roundtrip [65, 66] 95 [120, 121, 122] (by decide) (by decide) (by decide)
    (by decide) (by decide)

/-! ## Counting lemmas for RailFence encode length -/

theorem railSeqAux_length (rails : Nat) :
    ∀ (fuel i : Nat) (inc : Bool), (railSeqAux rails fuel i inc).length = fuel := by
  intro fuel
  induction fuel with
  | zero => intro i inc; rfl
  | succ fuel ih => intro i inc; simp [railSeqAux, ih]

theorem railSeqAux_lt (rails : Nat) (hr : 2 ≤ rails) :
    ∀ (fuel i : Nat) (inc : Bool), i < rails →
      ∀ r ∈ railSeqAux rails fuel i inc, r < rails := by
  intro fuel
  induction fuel with
  | zero => intro i inc _ r hr2; cases hr2
  | succ fuel ih =>
    intro i inc hi r hr2
    simp only [railSeqAux] at hr2
    rcases List.mem_cons.mp hr2 with rfl | hmem
    · exact hi
    · by_cases h1 : i = rails - 1
      · rw [if_pos h1] at hmem
        simp only [Bool.false_eq_true, if_false] at hmem
        exact ih (i - 1) false (by omega) r hmem
      · rw [if_neg h1] at hmem
        by_cases h2 : i = 0
        · rw [if_pos h2] at hmem
          simp only [if_true] at hmem
          exact ih (i + 1) true (by omega) r hmem
        · rw [if_neg h2] at hmem
          cases inc with
          | true =>
            simp only [if_true] at hmem
            exact ih (i + 1) true (by omega) r hmem
          | false =>
            simp only [Bool.false_eq_true, if_false] at hmem
            exact ih (i - 1) false (by omega) r hmem

theorem filterMap_if_length {β : Type} (r : Nat) :
    ∀ l : List (Nat × β),
      (l.filterMap (fun p => if p.1 = r then some p.2 else none)).length =
        l.countP (fun p => p.1 = r) := by
  intro l
  induction l with
  | nil => rfl
  | cons x xs ih =>
    simp only [List.filterMap_cons, List.countP_cons]
    by_cases hx : x.1 = r
    · rw [if_pos hx, if_pos (by simp [hx])]
      simp [ih]
    · rw [if_neg hx, if_neg (by simp [hx])]
      simp [ih]

theorem sum_map_add (f g : Nat → Nat) :
    ∀ l : List Nat, (l.map (fun r => f r + g r)).sum = (l.map f).sum + (l.map g).sum := by
  intro l
  induction l with
  | nil => rfl
  | cons x xs ih =>
    simp only [List.map_cons, List.sum_cons, ih]
    omega

theorem indicator_sum (v : Nat) :
    ∀ R : Nat, ((List.range R).map (fun r => if v = r then 1 else 0)).sum =
      if v < R then 1 else 0 := by
  intro R
  induction R with
  | zero => simp
  | succ R ih =>
    rw [List.range_succ, List.map_append, List.sum_append, ih]
    simp only [List.map_cons, List.map_nil, List.sum_cons, List.sum_nil]
    by_cases h1 : v = R
    · rw [if_pos h1, if_neg (by omega), if_pos (by omega)]
      omega
    · rw [if_neg h1]
      by_cases h2 : v < R
      · rw [if_pos h2, if_pos (by omega)]
        omega
      · rw [if_neg h2, if_neg (by omega)]
        omega

theorem sum_countP_fst {β : Type} (R : Nat) :
    ∀ l : List (Nat × β), (∀ p ∈ l, p.1 < R) →
      ((List.range R).map (fun r => l.countP (fun p => p.1 = r))).sum = l.length := by
  intro l
  induction l with
  | nil => intro _; simp
  | cons x xs ih =>
    intro h
    have hx : x.1 < R := h x (by simp)
    have hsplit : ((List.range R).map (fun r => (x :: xs).countP (fun p => p.1 = r))).sum =
        ((List.range R).map (fun r => xs.countP (fun p => p.1 = r))).sum +
          ((List.range R).map (fun r => if x.1 = r then 1 else 0)).sum := by
      rw [← sum_map_add]
      congr 1
      refine List.map_congr_left ?_
      intro r _
      rw [List.countP_cons]
      by_cases hxr : x.1 = r
      · rw [if_pos (by simp [hxr]), if_pos hxr]
      · rw [if_neg (by simp [hxr]), if_neg hxr]
    rw [hsplit, ih (fun p hp => h p (by simp [hp])), indicator_sum, if_pos hx]
    simp

/-- Each character of the text lands on exactly one rail, so the
rail-by-rail readout has the same length as the text. -/
theorem rail_readout_length {β : Type} (R : Nat) (l : List (Nat × β))
    (h : ∀ p ∈ l, p.1 < R) :
    ((List.range R).flatMap (fun r =>
      l.filterMap (fun p => if p.1 = r then some p.2 else none))).length = l.length := by
  rw [List.length_flatMap]
  have hmc : ((List.range R).map (List.length ∘ fun r =>
      l.filterMap (fun p => if p.1 = r then some p.2 else none))).sum =
      ((List.range R).map (fun r => l.countP (fun p => p.1 = r))).sum := by
    congr 1
    refine List.map_congr_left ?_
    intro r _
    exact filterMap_if_length r l
  rw [hmc]
  exact sum_countP_fst R l h

/-! ## Claim C10: encode preserves length -/

theorem optMap_total (f : α → Option β) :
    ∀ l : List α, (∀ x ∈ l, ∃ y, f x = some y) →
      ∃ r, optMap f l = some r ∧ r.length = l.length := by
  intro l
  induction l with
  | nil => intro _; exact ⟨[], rfl, rfl⟩
  | cons x xs ih =>
    intro h
    obtain ⟨y, hy⟩ := h x (by simp)
    obtain ⟨r, hr, hlen⟩ := ih (fun z hz => h z (by simp [hz]))
    refine ⟨y :: r, ?_, by simp [hlen]⟩
    simp only [optMap, hy, hr]
    rfl

theorem chrOpt_some (v : Int) (h : 0 ≤ v ∧ v < 1114112) : ∃ y, chrOpt v = some y := by
  exact ⟨v.toNat, by simp [chrOpt, if_pos h]⟩

theorem caesarEncChar_alpha_total (shift : Int) (hlo : -65 ≤ shift)
    (hhi : shift ≤ 1114015) (c : Nat) : ∃ y, caesarEncChar shift true c = some y := by
  simp only [caesarEncChar, if_true]
  by_cases h1 : 65 ≤ c ∧ c ≤ 90
  · rw [if_pos h1]
    by_cases h2 : (c : Int) + shift ≤ 90
    · rw [if_pos h2]
      exact chrOpt_some _ (by omega)
    · rw [if_neg h2]
      exact chrOpt_some _ (by omega)
  · rw [if_neg h1]
    by_cases h3 : 97 ≤ c ∧ c ≤ 122
    · rw [if_pos h3]
      by_cases h2 : (c : Int) + shift ≤ 122
      · rw [if_pos h2]
        exact chrOpt_some _ (by omega)
      · rw [if_neg h2]
        exact chrOpt_some _ (by omega)
    · rw [if_neg h3]
      exact ⟨c, rfl⟩

theorem affineEncChar_total (keyA keyB : Int) (ao : Bool) (c : Nat) :
    ∃ y, affineEncChar keyA keyB ao c = some y := by
  cases ao with
  | false =>
    simp only [affineEncChar, Bool.false_eq_true, if_false]
    have h1 := Int.emod_nonneg (keyA * ((c : Int) - 32) + keyB) (by norm_num : (95 : Int) ≠ 0)
    have h2 := Int.emod_lt_of_pos (keyA * ((c : Int) - 32) + keyB) (by norm_num : (0 : Int) < 95)
    exact chrOpt_some _ (by omega)
  | true =>
    simp only [affineEncChar, if_true]
    by_cases h1 : 65 ≤ c ∧ c ≤ 90
    · rw [if_pos h1]
      have ha := Int.emod_nonneg (keyA * ((c : Int) - 65) + keyB) (by norm_num : (26 : Int) ≠ 0)
      have hb := Int.emod_lt_of_pos (keyA * ((c : Int) - 65) + keyB) (by norm_num : (0 : Int) < 26)
      exact chrOpt_some _ (by omega)
    · rw [if_neg h1]
      by_cases h3 : 97 ≤ c ∧ c ≤ 122
      · rw [if_pos h3]
        have ha := Int.emod_nonneg (keyA * ((c : Int) - 97) + keyB) (by norm_num : (26 : Int) ≠ 0)
        have hb := Int.emod_lt_of_pos (keyA * ((c : Int) - 97) + keyB) (by norm_num : (0 : Int) < 26)
        obtain ⟨y, hy⟩ := chrOpt_some ((keyA * ((c : Int) - 97) + keyB) % 26 + 65) (by omega)
        exact ⟨y + 32, by rw [hy]; rfl⟩
      · rw [if_neg h3]
        exact ⟨c, rfl⟩

theorem vigenereEncChar_full_total (k c : Nat) :
    ∃ y, vigenereEncChar false k c = some y := by
  simp only [vigenereEncChar, Bool.false_eq_true, if_false]
  have h1 := Int.emod_nonneg (((c : Int) - 32) + ((k : Int) - 32)) (by norm_num : (95 : Int) ≠ 0)
  have h2 := Int.emod_lt_of_pos (((c : Int) - 32) + ((k : Int) - 32)) (by norm_num : (0 : Int) < 95)
  exact chrOpt_some _ (by omega)

theorem vigenereEncChar_alpha_total (k c : Nat) (hk : isAlphaChar k = true) :
    ∃ y, vigenereEncChar true k c = some y := by
  simp only [vigenereEncChar, if_true, if_pos hk]
  by_cases h1 : 65 ≤ c ∧ c ≤ 90
  · rw [if_pos h1]
    exact ⟨_, rfl⟩
  · rw [if_neg h1]
    by_cases h3 : 97 ≤ c ∧ c ≤ 122
    · rw [if_pos h3]
      exact ⟨_, rfl⟩
    · rw [if_neg h3]
      exact ⟨c, rfl⟩

theorem repeatList_length (key : List Nat) :
    ∀ m, (repeatList key m).length = m * key.length := by
  intro m
  induction m with
  | zero => simp [repeatList]
  | succ m ih =>
    simp only [repeatList, List.length_append, ih]
    ring

theorem mem_repeatList (key : List Nat) :
    ∀ m x, x ∈ repeatList key m → x ∈ key := by
  intro m
  induction m with
  | zero => intro x hx; cases hx
  | succ m ih =>
    intro x hx
    rcases List.mem_append.mp hx with h | h
    · exact h
    · exact ih x h

theorem fk_long_enough (key : List Nat) (hk : key ≠ []) (len : Nat) :
    len ≤ ((repeatList key (len / key.length + 1)).map toUpperChar).length := by
  have hn : 0 < key.length := List.length_pos.mpr hk
  rw [List.length_map, repeatList_length]
  have hdm := Nat.div_add_mod len key.length
  have hmlt := Nat.mod_lt len hn
  have he : (len / key.length + 1) * key.length =
      key.length * (len / key.length) + key.length := by ring
  omega

theorem isAlphaChar_toUpper (c : Nat) (h : isAlphaChar c = true) :
    isAlphaChar (toUpperChar c) = true := by
  simp only [isAlphaChar, Bool.or_eq_true, Bool.and_eq_true, decide_eq_true_eq] at h ⊢
  unfold toUpperChar
  rcases h with h | h
  · rw [if_neg (by omega)]
    omega
  · rw [if_pos (by omega)]
    omega

/-- C10 counterexample: CaesarCipher(shift=-100, alpha_only=True) on the
accepted one-character text "A" raises inside the loop (`chr(-35)` is a
ValueError), so encode returns no string at all, let alone one of equal
length. -/
theorem caesar_alpha_large_negative_shift_raises :
    caesarEncode (-100) true [65] = none := by decide

/-- C10 (amended: for letters-only Caesar the shift must lie in
[-65, 1114015], the range on which `chr` never fails; everything else is
as claimed): every cipher primitive returns a string of exactly the
length of its input, over the whole accepted domain. -/
theorem encode_preserves_length (s : List Nat) (hs : ∀ c ∈ s, 32 ≤ c ∧ c ≤ 126) :
    (∀ shift : Int, ∃ t, caesarEncode shift false s = some t ∧ t.length = s.length)
    ∧ (∀ shift : Int, -65 ≤ shift → shift ≤ 1114015 →
        ∃ t, caesarEncode shift true s = some t ∧ t.length = s.length)
    ∧ (∀ ao : Bool, ∃ t, atbashEncode ao s = some t ∧ t.length = s.length)
    ∧ (∀ keyA keyB : Int, ∀ ao : Bool,
        ∃ t, affineEncode keyA keyB ao s = some t ∧ t.length = s.length)
    ∧ (∀ key : List Nat, key ≠ [] →
        ∃ t, vigenereEncode key false s = some t ∧ t.length = s.length)
    ∧ (∀ key : List Nat, key ≠ [] → (∀ c ∈ key, isAlphaChar c = true) →
        ∃ t, vigenereEncode key true s = some t ∧ t.length = s.length)
    ∧ (∀ rails : Nat, 2 ≤ rails →
        ∃ t, railEncode rails s = some t ∧ t.length = s.length) := by
  by_cases hsnil : s = []
  · subst hsnil
    refine ⟨?_, ?_, ?_, ?_, ?_, ?_, ?_⟩ <;>
      intros <;> exact ⟨[], rfl, rfl⟩
  have hpass : domainCheckPasses s = true := by
    cases s with
    | nil => exact absurd rfl hsnil
    | cons a l => exact domainCheckPasses_cons a l (hs a (by simp))
  have hguard : ∀ (f : Nat → Option Nat), (∀ x ∈ s, ∃ y, f x = some y) →
      ∃ t, (if s = [] then some s
          else if ¬ domainCheckPasses s then none
          else optMap f s) = some t ∧ t.length = s.length := by
    intro f hf
    rw [if_neg hsnil, if_neg (by simp [hpass])]
    exact optMap_total f s hf
  refine ⟨?_, ?_, ?_, ?_, ?_, ?_, ?_⟩
  · intro shift
    exact hguard _ (fun x _ => ⟨_, caesarEncChar_full shift x⟩)
  · intro shift hlo hhi
    exact hguard _ (fun x _ => caesarEncChar_alpha_total shift hlo hhi x)
  · intro ao
    exact hguard _ (fun x hx => ⟨_, atbashChar_eq ao x (hs x hx)⟩)
  · intro keyA keyB ao
    exact hguard _ (fun x _ => affineEncChar_total keyA keyB ao x)
  · intro key hk
    unfold vigenereEncode
    rw [if_neg hsnil, if_neg (by simp [hpass])]
    have hzlen : (((repeatList key (s.length / key.length + 1)).map toUpperChar).zip s).length
        = s.length := by
      rw [List.length_zip]
      exact Nat.min_eq_right (fk_long_enough key hk s.length)
    obtain ⟨r, hr, hlen⟩ := optMap_total (fun p => vigenereEncChar false p.1 p.2)
      (((repeatList key (s.length / key.length + 1)).map toUpperChar).zip s)
      (fun p _ => vigenereEncChar_full_total p.1 p.2)
    exact ⟨r, hr, by rw [hlen, hzlen]⟩
  · intro key hk hka
    unfold vigenereEncode
    rw [if_neg hsnil, if_neg (by simp [hpass])]
    have hzlen : (((repeatList key (s.length / key.length + 1)).map toUpperChar).zip s).length
        = s.length := by
      rw [List.length_zip]
      exact Nat.min_eq_right (fk_long_enough key hk s.length)
    obtain ⟨r, hr, hlen⟩ := optMap_total (fun p => vigenereEncChar true p.1 p.2)
      (((repeatList key (s.length / key.length + 1)).map toUpperChar).zip s)
      (fun p hp => by
        have h1 := (List.of_mem_zip hp).1
        rcases List.mem_map.mp h1 with ⟨c, hc, hcu⟩
        have := isAlphaChar_toUpper c (hka c (mem_repeatList key _ c hc))
        rw [hcu] at this
        exact vigenereEncChar_alpha_total p.1 p.2 this)
    exact ⟨r, hr, by rw [hlen, hzlen]⟩
  · intro rails hrails
    unfold railEncode
    rw [if_neg hsnil, if_neg (by simp [hpass])]
    refine ⟨_, rfl, ?_⟩
    have hseq : ∀ p ∈ (railSeq rails s.length).zip s, p.1 < rails := by
      intro p hp
      have h1 := (List.of_mem_zip hp).1
      exact railSeqAux_lt rails hrails s.length 0 true (by omega) p.1 h1
    rw [rail_readout_length rails _ hseq, List.length_zip]
    unfold railSeq
    rw [railSeqAux_length]
    exact Nat.min_self s.length

/-- C10 witness on the text "Az" (codes 65, 122). -/
theorem encode_preserves_length_witness :
    (∀ shift : Int, ∃ t, caesarEncode shift false [65, 122] = some t ∧ t.length = 2)
    ∧ (∀ shift : Int, -65 ≤ shift → shift ≤ 1114015 →
        ∃ t, caesarEncode shift true [65, 122] = some t ∧ t.length = 2)
    ∧ (∀ ao : Bool, ∃ t, atbashEncode ao [65, 122] = some t ∧ t.length = 2)
    ∧ (∀ keyA keyB : Int, ∀ ao : Bool,
        ∃ t, affineEncode keyA keyB ao [65, 122] = some t ∧ t.length = 2)
    ∧ (∀ key : List Nat, key ≠ [] →
        ∃ t, vigenereEncode key false [65, 122] = some t ∧ t.length = 2)
    ∧ (∀ key : List Nat, key ≠ [] → (∀ c ∈ key, isAlphaChar c = true) →
        ∃ t, vigenereEncode key true [65, 122] = some t ∧ t.length = 2)
    ∧ (∀ rails : Nat, 2 ≤ rails →
        ∃ t, railEncode rails [65, 122] = some t ∧ t.length = 2) :=
  encode_preserves_length [65, 122] (by decide)

/-! ## StructuredDataEncoder (`encoding/utils.py`) -/

/-- The scalar values the codec supports (those handled by `__get_str`
and appearing in the claim).  A Python float is carried as the code
points of its `str()` output — Python guarantees that `str`/`eval`
round-trips every finite float, so the literal string is a faithful
identity for the value. -/
inductive PyScalar where
  | intV (n : Int)
  | floatV (r : List Nat)
  | boolV (b : Bool)
  | noneV
  | strV (s : List Nat)

/-- A Python value as the codec sees it: a scalar or one of the five
container kinds.  Dict and set iteration order is the list order. -/
inductive PyVal where
  | scalar (v : PyScalar)
  | listV (xs : List PyVal)
  | tupleV (xs : List PyVal)
  | dictV (xs : List (PyVal × PyVal))
  | setV (xs : List PyVal)
  | frozensetV (xs : List PyVal)

/-- Decimal digits of `n`, most significant first (the output of
Python `str` on a nonnegative int). -/
def natRepr (n : Nat) : List Nat :=
  if h : n < 10 then [48 + n] else natRepr (n / 10) ++ [48 + n % 10]
  termination_by n
  decreasing_by exact Nat.div_lt_self (by omega) (by omega)

/-- Python `str` of an int. -/
def intRepr (n : Int) : List Nat :=
  if n < 0 then 45 :: natRepr n.natAbs else natRepr n.toNat

def noneTok : List Nat := [78, 111, 110, 101]

def trueTok : List Nat := [84, 114, 117, 101]

def falseTok : List Nat := [70, 97, 108, 115, 101]

/-- The five characters of the tag the codec puts before a string
scalar, spelling str-open-paren-quote. -/
def strTag : List Nat := [115, 116, 114, 40, 39]

/-- The closing quote-paren. -/
def closeTag : List Nat := [39, 41]

/-- `StructuredDataEncoder.__get_str`: ints, floats, booleans and None
render as `str(obj)`; a string renders quoted inside a str(...) tag. -/
def getStr : PyScalar → List Nat
  | .intV n => intRepr n
  | .floatV r => r
  | .boolV true => trueTok
  | .boolV false => falseTok
  | .noneV => noneTok
  | .strV s => strTag ++ s ++ closeTag

def isDigit (c : Nat) : Bool := 48 ≤ c && c ≤ 57

/-- Recognizer for the int literals `str(int)` produces. -/
def isIntLit (s : List Nat) : Bool :=
  match s with
  | [] => false
  | c :: cs => if c = 45 then !cs.isEmpty && cs.all isDigit else (c :: cs).all isDigit

def parseDigits (s : List Nat) : Nat := s.foldl (fun acc c => 10 * acc + (c - 48)) 0

def parseIntLit (s : List Nat) : Int :=
  match s with
  | [] => 0
  | c :: cs => if c = 45 then -(parseDigits cs : Int) else (parseDigits (c :: cs) : Int)

/-- Exponent/end part of a float literal; a bare end is only valid when a
decimal point was already seen. -/
def floatTail (r : List Nat) (hasDot : Bool) : Bool :=
  match r with
  | [] => hasDot
  | c :: cs =>
    if c = 101 then
      let cs2 := if cs.head? = some 43 ∨ cs.head? = some 45 then cs.tail else cs
      !cs2.isEmpty && cs2.all isDigit
    else false

/-- Recognizer for the shape of `str(float)` on finite floats: optional
minus sign, digits, optional point-digits, optional exponent, with a
point or exponent required (so int literals, inf and nan are excluded). -/
def isFloatLit (s : List Nat) : Bool :=
  let rest0 := if s.head? = some 45 then s.tail else s
  let d1 := rest0.takeWhile isDigit
  let r1 := rest0.dropWhile isDigit
  if d1.isEmpty then false
  else if r1.head? = some 46 then
    let cs := r1.tail
    let d2 := cs.takeWhile isDigit
    let r3 := cs.dropWhile isDigit
    if d2.isEmpty then false else floatTail r3 true
  else floatTail r1 false

/-- Scanner for the inside of a single-quoted Python string literal: an
unescaped quote closes the literal; a backslash or a raw line break makes
the model reject (the codec never produces escapes, and a raw newline is
a SyntaxError in a Python literal). -/
def scanLit : List Nat → Option (List Nat × List Nat)
  | [] => none
  | c :: cs =>
    if c = 39 then some ([], cs)
    else if c = 92 ∨ c = 10 ∨ c = 13 then none
    else (scanLit cs).map (fun p => (c :: p.1, p.2))

/-- Python `eval` restricted to the canonical leaf forms this codec
produces: the None/True/False tokens, `str('...')` literals, int literals
and float literals.  (eval is library code; this models exactly its
behaviour on the canonical strings.) -/
def pyEval (s : List Nat) : Option PyVal :=
  if s = noneTok then some (.scalar .noneV)
  else if s = trueTok then some (.scalar (.boolV true))
  else if s = falseTok then some (.scalar (.boolV false))
  else if s.take 5 = strTag then
    match scanLit (s.drop 5) with
    | none => none
    | some p => if p.2 = [41] then some (.scalar (.strV p.1)) else none
  else if isIntLit s then some (.scalar (.intV (parseIntLit s)))
  else if isFloatLit s then some (.scalar (.floatV s))
  else none

/-- `StructuredDataEncoder.encode`: recurse through containers, turn each
scalar into its canonical string and pass it through the text encoder. -/
def sdEncode (enc : List Nat → List Nat) : PyVal → PyVal
  | .scalar v => .scalar (.strV (enc (getStr v)))
  | .listV xs => .listV (xs.attach.map (fun x => sdEncode enc x.1))
  | .tupleV xs => .tupleV (xs.attach.map (fun x => sdEncode enc x.1))
  | .dictV xs => .dictV (xs.attach.map (fun p => (sdEncode enc p.1.1, sdEncode enc p.1.2)))
  | .setV xs => .setV (xs.attach.map (fun x => sdEncode enc x.1))
  | .frozensetV xs => .frozensetV (xs.attach.map (fun x => sdEncode enc x.1))
  decreasing_by
  all_goals
    first
    | (have h1 := List.sizeOf_lt_of_mem x.2
       simp only [PyVal.listV.sizeOf_spec, PyVal.tupleV.sizeOf_spec, PyVal.setV.sizeOf_spec,
         PyVal.frozensetV.sizeOf_spec]
       omega)
    | (have h1 := List.sizeOf_lt_of_mem p.2
       rcases p with ⟨⟨k, v⟩, hp⟩
       simp only [PyVal.dictV.sizeOf_spec, Prod.mk.sizeOf_spec] at h1 ⊢
       omega)

/-- `StructuredDataEncoder.decode`: containers recurse (an error anywhere
propagates), a string leaf is text-decoded and then evaluated, any other
scalar raises the unsupported-type error. -/
def sdDecode (dec : List Nat → List Nat) : PyVal → Option PyVal
  | .scalar (.strV s) => pyEval (dec s)
  | .scalar _ => none
  | .listV xs => (optMap id (xs.attach.map (fun x => sdDecode dec x.1))).map .listV
  | .tupleV xs => (optMap id (xs.attach.map (fun x => sdDecode dec x.1))).map .tupleV
  | .dictV xs => (optMap id (xs.attach.map (fun p =>
      (sdDecode dec p.1.1).bind (fun k => (sdDecode dec p.1.2).map (fun v => (k, v)))))).map .dictV
  | .setV xs => (optMap id (xs.attach.map (fun x => sdDecode dec x.1))).map .setV
  | .frozensetV xs => (optMap id (xs.attach.map (fun x => sdDecode dec x.1))).map .frozensetV
  decreasing_by
  all_goals
    first
    | (have h1 := List.sizeOf_lt_of_mem x.2
       simp only [PyVal.listV.sizeOf_spec, PyVal.tupleV.sizeOf_spec, PyVal.setV.sizeOf_spec,
         PyVal.frozensetV.sizeOf_spec]
       omega)
    | (have h1 := List.sizeOf_lt_of_mem p.2
       rcases p with ⟨⟨k, v⟩, hp⟩
       simp only [PyVal.dictV.sizeOf_spec, Prod.mk.sizeOf_spec] at h1 ⊢
       omega)

/-- A string scalar the quoting scheme can carry: no quote, backslash or
line break. -/
def cleanStr (s : List Nat) : Bool :=
  s.all (fun c => !(c == 39) && !(c == 92) && !(c == 10) && !(c == 13))

def wfScalar : PyScalar → Bool
  | .floatV r => isFloatLit r
  | .strV s => cleanStr s
  | _ => true

/-- Well-formed values: every float leaf is a genuine finite-float
literal and every string leaf is clean. -/
def wfVal : PyVal → Bool
  | .scalar v => wfScalar v
  | .listV xs => xs.attach.all (fun x => wfVal x.1)
  | .tupleV xs => xs.attach.all (fun x => wfVal x.1)
  | .dictV xs => xs.attach.all (fun p => wfVal p.1.1 && wfVal p.1.2)
  | .setV xs => xs.attach.all (fun x => wfVal x.1)
  | .frozensetV xs => xs.attach.all (fun x => wfVal x.1)
  decreasing_by
  all_goals
    first
    | (have h1 := List.sizeOf_lt_of_mem x.2
       simp only [PyVal.listV.sizeOf_spec, PyVal.tupleV.sizeOf_spec, PyVal.setV.sizeOf_spec,
         PyVal.frozensetV.sizeOf_spec]
       omega)
    | (have h1 := List.sizeOf_lt_of_mem p.2
       rcases p with ⟨⟨k, v⟩, hp⟩
       simp only [PyVal.dictV.sizeOf_spec, Prod.mk.sizeOf_spec] at h1 ⊢
       omega)

/-! ## The canonical scalar forms evaluate back to themselves -/

theorem natRepr_ne_nil (n : Nat) : natRepr n ≠ [] := by
  rw [natRepr]
  split
  · simp
  · simp

theorem natRepr_digits (n : Nat) : ∀ c ∈ natRepr n, isDigit c = true := by
  induction n using Nat.strong_induction_on with
  | _ n ih =>
    rw [natRepr]
    split
    · intro c hc
      simp only [List.mem_singleton] at hc
      subst hc
      simp only [isDigit, Bool.and_eq_true, decide_eq_true_eq]
      omega
    · intro c hc
      rcases List.mem_append.mp hc with h | h
      · exact ih (n / 10) (Nat.div_lt_self (by omega) (by omega)) c h
      · simp only [List.mem_singleton] at h
        subst h
        simp only [isDigit, Bool.and_eq_true, decide_eq_true_eq]
        have := Nat.mod_lt n (show 0 < 10 by omega)
        omega

theorem parseDigits_append_one (l : List Nat) (x : Nat) :
    parseDigits (l ++ [x]) = 10 * parseDigits l + (x - 48) := by
  unfold parseDigits
  rw [List.foldl_append]
  rfl

theorem parseDigits_natRepr (n : Nat) : parseDigits (natRepr n) = n := by
  induction n using Nat.strong_induction_on with
  | _ n ih =>
    rw [natRepr]
    split
    · simp only [parseDigits, List.foldl_cons, List.foldl_nil]
      omega
    · rw [parseDigits_append_one, ih (n / 10) (Nat.div_lt_self (by omega) (by omega))]
      omega

theorem natRepr_head_digit (n : Nat) :
    ∃ c cs, natRepr n = c :: cs ∧ 48 ≤ c ∧ c ≤ 57 := by
  rcases List.exists_cons_of_ne_nil (natRepr_ne_nil n) with ⟨c, cs, hc⟩
  refine ⟨c, cs, hc, ?_⟩
  have := natRepr_digits n c (by rw [hc]; simp)
  simp only [isDigit, Bool.and_eq_true, decide_eq_true_eq] at this
  exact this

theorem intRepr_head (n : Int) :
    ∃ c cs, intRepr n = c :: cs ∧ (c = 45 ∨ (48 ≤ c ∧ c ≤ 57)) := by
  unfold intRepr
  by_cases h : n < 0
  · rw [if_pos h]
    exact ⟨45, natRepr n.natAbs, rfl, Or.inl rfl⟩
  · rw [if_neg h]
    rcases natRepr_head_digit n.toNat with ⟨c, cs, hc, h1, h2⟩
    exact ⟨c, cs, hc, Or.inr ⟨h1, h2⟩⟩

theorem isIntLit_intRepr (n : Int) : isIntLit (intRepr n) = true := by
  unfold intRepr
  by_cases h : n < 0
  · rw [if_pos h]
    simp only [isIntLit]
    rw [if_pos trivial]
    simp only [Bool.and_eq_true, Bool.not_eq_true']
    constructor
    · simp [natRepr_ne_nil n.natAbs]
    · rw [List.all_eq_true]
      exact natRepr_digits n.natAbs
  · rw [if_neg h]
    rcases natRepr_head_digit n.toNat with ⟨c, cs, hc, h1, h2⟩
    rw [hc]
    simp only [isIntLit]
    rw [if_neg (by omega : ¬ c = 45)]
    rw [← hc, List.all_eq_true]
    exact natRepr_digits n.toNat

theorem parseIntLit_intRepr (n : Int) : parseIntLit (intRepr n) = n := by
  unfold intRepr
  by_cases h : n < 0
  · rw [if_pos h]
    simp only [parseIntLit]
    rw [if_pos trivial, parseDigits_natRepr]
    omega
  · rw [if_neg h]
    rcases natRepr_head_digit n.toNat with ⟨c, cs, hc, h1, h2⟩
    rw [hc]
    simp only [parseIntLit]
    rw [if_neg (by omega : ¬ c = 45)]
    rw [← hc, parseDigits_natRepr]
    omega

theorem head_ne_of_head? (l1 l2 : List Nat) (h : l1.head? ≠ l2.head?) : l1 ≠ l2 :=
  fun he => h (congrArg List.head? he)

theorem take5_strTag_head (l : List Nat) (h : l.take 5 = strTag) : l.head? = some 115 := by
  cases l with
  | nil => simp [strTag] at h
  | cons c cs =>
    rw [show (5 : Nat) = 4 + 1 from rfl, List.take_succ_cons] at h
    rw [show strTag = 115 :: [116, 114, 40, 39] from rfl] at h
    simp only [List.cons.injEq] at h
    simp [h.1]

theorem takeWhile_all_self (p : Nat → Bool) :
    ∀ l : List Nat, l.all p = true → l.takeWhile p = l := by
  intro l
  induction l with
  | nil => intro _; rfl
  | cons c cs ih =>
    intro h
    simp only [List.all_cons, Bool.and_eq_true] at h
    rw [List.takeWhile_cons_of_pos h.1, ih h.2]

theorem dropWhile_all_nil (p : Nat → Bool) :
    ∀ l : List Nat, l.all p = true → l.dropWhile p = [] := by
  intro l
  induction l with
  | nil => intro _; rfl
  | cons c cs ih =>
    intro h
    simp only [List.all_cons, Bool.and_eq_true] at h
    rw [List.dropWhile_cons_of_pos h.1, ih h.2]

theorem isFloatLit_isIntLit_false (r : List Nat) (h : isIntLit r = true) :
    isFloatLit r = false := by
  cases r with
  | nil => simp [isIntLit] at h
  | cons c cs =>
    simp only [isIntLit] at h
    by_cases hc : c = 45
    · rw [if_pos hc] at h
      simp only [Bool.and_eq_true, Bool.not_eq_true'] at h
      subst hc
      simp only [isFloatLit, List.head?_cons, List.tail_cons]
      rw [if_pos trivial]
      rw [takeWhile_all_self isDigit cs h.2, dropWhile_all_nil isDigit cs h.2]
      rw [if_neg (by rw [h.1]; simp)]
      rw [if_neg (by simp)]
      rfl
    · rw [if_neg hc] at h
      simp only [isFloatLit, List.head?_cons]
      rw [if_neg (show ¬ (some c = some 45) by simp [hc])]
      rw [takeWhile_all_self isDigit _ h, dropWhile_all_nil isDigit _ h]
      rw [if_neg (by simp)]
      rw [if_neg (by simp)]
      rfl

theorem isFloatLit_cons115_false (cs : List Nat) : isFloatLit (115 :: cs) = false := by
  simp only [isFloatLit, List.head?_cons]
  rw [if_neg (show ¬ ((some (115 : Nat)) = some 45) by decide)]
  rw [List.takeWhile_cons_of_neg (show ¬ (isDigit 115 = true) by decide)]
  simp

theorem scanLit_clean (rest : List Nat) :
    ∀ s : List Nat, cleanStr s = true →
      scanLit (s ++ (39 :: rest)) = some (s, rest) := by
  intro s
  induction s with
  | nil =>
    intro _
    rfl
  | cons c cs ih =>
    intro h
    have hc := List.all_eq_true.mp h c (by simp)
    have hcs : cleanStr cs = true := by
      simp only [cleanStr, List.all_eq_true] at h ⊢
      intro x hx
      exact h x (by simp [hx])
    simp only [Bool.and_eq_true, Bool.not_eq_true', beq_eq_false_iff_ne, ne_eq] at hc
    obtain ⟨⟨⟨h39, h92⟩, h10⟩, h13⟩ := hc
    simp only [List.cons_append, scanLit]
    rw [if_neg h39, if_neg (by tauto)]
    simp only [List.append_eq]
    rw [ih hcs]
    rfl

/-- A well-formed scalar's canonical string evaluates back to the scalar. -/
theorem pyEval_getStr (sc : PyScalar) (hwf : wfScalar sc = true) :
    pyEval (getStr sc) = some (.scalar sc) := by
  cases sc with
  | noneV => rfl
  | boolV b => cases b <;> rfl
  | intV n =>
    show pyEval (intRepr n) = some (.scalar (.intV n))
    rcases intRepr_head n with ⟨c, cs, hc, hrange⟩
    unfold pyEval
    rw [if_neg (head_ne_of_head? _ _ (by rw [hc]; simp [noneTok]; omega))]
    rw [if_neg (head_ne_of_head? _ _ (by rw [hc]; simp [trueTok]; omega))]
    rw [if_neg (head_ne_of_head? _ _ (by rw [hc]; simp [falseTok]; omega))]
    rw [if_neg (fun hctr => by
      have := take5_strTag_head _ hctr
      rw [hc] at this
      simp at this
      omega)]
    rw [if_pos (isIntLit_intRepr n), parseIntLit_intRepr n]
  | floatV r =>
    show pyEval r = some (.scalar (.floatV r))
    have hwf2 : isFloatLit r = true := hwf
    unfold pyEval
    rw [if_neg (fun hctr => by rw [hctr] at hwf2; exact absurd hwf2 (by decide))]
    rw [if_neg (fun hctr => by rw [hctr] at hwf2; exact absurd hwf2 (by decide))]
    rw [if_neg (fun hctr => by rw [hctr] at hwf2; exact absurd hwf2 (by decide))]
    rw [if_neg (fun hctr => by
      have hh := take5_strTag_head _ hctr
      cases r with
      | nil => simp at hh
      | cons c cs =>
        simp only [List.head?_cons, Option.some.injEq] at hh
        subst hh
        rw [isFloatLit_cons115_false] at hwf2
        exact absurd hwf2 (by simp))]
    rw [if_neg (fun hctr => by
      rw [isFloatLit_isIntLit_false r hctr] at hwf2
      exact absurd hwf2 (by simp))]
    rw [if_pos hwf2]
  | strV s =>
    show pyEval (strTag ++ s ++ closeTag) = some (.scalar (.strV s))
    have hclean : cleanStr s = true := hwf
    unfold pyEval
    rw [if_neg (head_ne_of_head? _ _ (by simp [strTag, noneTok]))]
    rw [if_neg (head_ne_of_head? _ _ (by simp [strTag, trueTok]))]
    rw [if_neg (head_ne_of_head? _ _ (by simp [strTag, falseTok]))]
    rw [if_pos (by
      rw [List.append_assoc]
      rw [show (5 : Nat) = strTag.length from rfl]
      exact List.take_left _ _)]
    rw [List.append_assoc]
    rw [show (5 : Nat) = strTag.length from rfl, List.drop_left]
    rw [show s ++ closeTag = s ++ (39 :: [41]) from rfl]
    rw [scanLit_clean [41] s hclean]
    simp

theorem sizeOf_pos_pyval (v : PyVal) : 0 < sizeOf v := by
  cases v <;> simp only [PyVal.scalar.sizeOf_spec, PyVal.listV.sizeOf_spec,
    PyVal.tupleV.sizeOf_spec, PyVal.dictV.sizeOf_spec, PyVal.setV.sizeOf_spec,
    PyVal.frozensetV.sizeOf_spec] <;> omega

theorem all_attach_forall {xs : List PyVal} {P : PyVal → Bool}
    (h : xs.attach.all (fun x => P x.1) = true) : ∀ x ∈ xs, P x = true := by
  intro x hx
  exact List.all_eq_true.mp h ⟨x, hx⟩ (List.mem_attach xs ⟨x, hx⟩)

theorem all_attach_forall_pairs {xs : List (PyVal × PyVal)} {P : PyVal → Bool}
    (h : xs.attach.all (fun p => P p.1.1 && P p.1.2) = true) :
    ∀ p ∈ xs, P p.1 = true ∧ P p.2 = true := by
  intro p hp
  have := List.all_eq_true.mp h ⟨p, hp⟩ (List.mem_attach xs ⟨p, hp⟩)
  simpa using this

theorem all_attach_eq {α : Type} (xs : List α) (f : α → Bool) :
    (xs.attach.all (fun x => f x.1)) = xs.all f := by
  rw [Bool.eq_iff_iff]
  simp only [List.all_eq_true]
  exact ⟨fun h x hx => h ⟨x, hx⟩ (List.mem_attach _ _), fun h x _ => h x.1 x.2⟩

theorem all_attach_pair_eq (xs : List (PyVal × PyVal)) :
    (xs.attach.all (fun p => wfVal p.1.1 && wfVal p.1.2)) =
    xs.all (fun p => wfVal p.1 && wfVal p.2) :=
  all_attach_eq xs (fun p => wfVal p.1 && wfVal p.2)

theorem decode_encode_elems (enc dec : List Nat → List Nat) (xs : List PyVal)
    (h : ∀ x ∈ xs, sdDecode dec (sdEncode enc x) = some x) :
    optMap id ((xs.attach.map (fun x => sdEncode enc x.1)).attach.map
      (fun y => sdDecode dec y.1)) = some xs := by
  rw [List.attach_map_val, List.attach_map_val, List.map_map]
  have h2 : optMap id (xs.map (fun x => sdDecode dec (sdEncode enc x))) = some (xs.map id) := by
    rw [optMap_map]
    exact optMap_eq_some_map _ id xs (fun x hx => by simpa using h x hx)
  simpa using h2

theorem decode_encode_pairs (enc dec : List Nat → List Nat) (xs : List (PyVal × PyVal))
    (h : ∀ p ∈ xs, sdDecode dec (sdEncode enc p.1) = some p.1
      ∧ sdDecode dec (sdEncode enc p.2) = some p.2) :
    optMap id ((xs.attach.map (fun p => (sdEncode enc p.1.1, sdEncode enc p.1.2))).attach.map
      (fun p => (sdDecode dec p.1.1).bind
        (fun k => (sdDecode dec p.1.2).map (fun w => (k, w))))) = some xs := by
  have e1 : xs.attach.map (fun p => (sdEncode enc p.1.1, sdEncode enc p.1.2)) =
      xs.map (fun p => (sdEncode enc p.1, sdEncode enc p.2)) :=
    List.attach_map_val xs (fun p => (sdEncode enc p.1, sdEncode enc p.2))
  have e2 : ∀ ys : List (PyVal × PyVal),
      ys.attach.map (fun p => (sdDecode dec p.1.1).bind
        (fun k => (sdDecode dec p.1.2).map (fun w => (k, w)))) =
      ys.map (fun p => (sdDecode dec p.1).bind
        (fun k => (sdDecode dec p.2).map (fun w => (k, w)))) :=
    fun ys => List.attach_map_val ys (fun p => (sdDecode dec p.1).bind
      (fun k => (sdDecode dec p.2).map (fun w => (k, w))))
  rw [e1, e2, List.map_map]
  have h2 : optMap id (xs.map (fun p =>
      (sdDecode dec (sdEncode enc p.1)).bind
        (fun k => (sdDecode dec (sdEncode enc p.2)).map (fun w => (k, w))))) =
      some (xs.map id) := by
    rw [optMap_map]
    refine optMap_eq_some_map _ id xs (fun p hp => ?_)
    rcases h p hp with ⟨h1, h2⟩
    simp [h1, h2]
  simpa using h2

/-- C3 (amended: strings must not contain a quote, backslash or line
break, and floats are finite): over a text encoder that round-trips every
string, the structured codec round-trips every well-formed nested value,
preserving container kinds and order. -/
theorem sd_roundtrip (enc dec : List Nat → List Nat) (hrt : ∀ t, dec (enc t) = t)
    (v : PyVal) (hwf : wfVal v = true) :
    sdDecode dec (sdEncode enc v) = some v := by
  suffices H : ∀ m (w : PyVal), sizeOf w ≤ m → wfVal w = true →
      sdDecode dec (sdEncode enc w) = some w by exact H (sizeOf v) v le_rfl hwf
  intro m
  induction m with
  | zero =>
    intro w hw _
    have := sizeOf_pos_pyval w
    omega
  | succ m ih =>
    intro w hw hwfw
    cases w with
    | scalar sc =>
      simp only [sdEncode, sdDecode]
      rw [hrt]
      refine pyEval_getStr sc ?_
      simpa [wfVal] using hwfw
    | listV xs =>
      have helems : ∀ x ∈ xs, sdDecode dec (sdEncode enc x) = some x := by
        intro x hx
        have h1 : sizeOf x < sizeOf xs := List.sizeOf_lt_of_mem hx
        have hsz : sizeOf (PyVal.listV xs) = 1 + sizeOf xs := by simp
        refine ih x (by omega) ?_
        simp only [wfVal] at hwfw
        exact all_attach_forall hwfw x hx
      simp only [sdEncode, sdDecode]
      rw [decode_encode_elems enc dec xs helems]
      rfl
    | tupleV xs =>
      have helems : ∀ x ∈ xs, sdDecode dec (sdEncode enc x) = some x := by
        intro x hx
        have h1 : sizeOf x < sizeOf xs := List.sizeOf_lt_of_mem hx
        have hsz : sizeOf (PyVal.tupleV xs) = 1 + sizeOf xs := by simp
        refine ih x (by omega) ?_
        simp only [wfVal] at hwfw
        exact all_attach_forall hwfw x hx
      simp only [sdEncode, sdDecode]
      rw [decode_encode_elems enc dec xs helems]
      rfl
    | setV xs =>
      have helems : ∀ x ∈ xs, sdDecode dec (sdEncode enc x) = some x := by
        intro x hx
        have h1 : sizeOf x < sizeOf xs := List.sizeOf_lt_of_mem hx
        have hsz : sizeOf (PyVal.setV xs) = 1 + sizeOf xs := by simp
        refine ih x (by omega) ?_
        simp only [wfVal] at hwfw
        exact all_attach_forall hwfw x hx
      simp only [sdEncode, sdDecode]
      rw [decode_encode_elems enc dec xs helems]
      rfl
    | frozensetV xs =>
      have helems : ∀ x ∈ xs, sdDecode dec (sdEncode enc x) = some x := by
        intro x hx
        have h1 : sizeOf x < sizeOf xs := List.sizeOf_lt_of_mem hx
        have hsz : sizeOf (PyVal.frozensetV xs) = 1 + sizeOf xs := by simp
        refine ih x (by omega) ?_
        simp only [wfVal] at hwfw
        exact all_attach_forall hwfw x hx
      simp only [sdEncode, sdDecode]
      rw [decode_encode_elems enc dec xs helems]
      rfl
    | dictV xs =>
      have helems : ∀ p ∈ xs, sdDecode dec (sdEncode enc p.1) = some p.1
          ∧ sdDecode dec (sdEncode enc p.2) = some p.2 := by
        intro p hp
        have h1 : sizeOf p < sizeOf xs := List.sizeOf_lt_of_mem hp
        have hsz : sizeOf (PyVal.dictV xs) = 1 + sizeOf xs := by simp
        have hps : sizeOf p = 1 + sizeOf p.1 + sizeOf p.2 := by
          rcases p with ⟨k, w2⟩
          simp
        simp only [wfVal] at hwfw
        rcases all_attach_forall_pairs hwfw p hp with ⟨hw1, hw2⟩
        exact ⟨ih p.1 (by omega) hw1, ih p.2 (by omega) hw2⟩
      simp only [sdEncode, sdDecode]
      rw [decode_encode_pairs enc dec xs helems]
      rfl

/-- C3 counterexample: the one-string value "it's" (codes 105, 116, 39,
115) breaks the round trip even over the identity text encoder — the
canonical form str('it's') is not a valid literal, so eval raises — while
the claim asserts decode(encode(v)) == v for every string. -/
theorem sd_quote_string_breaks :
    sdDecode (fun t => t) (sdEncode (fun t => t)
      (.scalar (.strV [105, 116, 39, 115]))) = none
    ∧ (∀ t : List Nat, (fun u : List Nat => u) ((fun u : List Nat => u) t) = t) := by
  constructor
  · simp only [sdEncode, sdDecode]
    rw [← Option.isNone_iff_eq_none]
    decide
  · intro t
    rfl

/-- C3 witness: a dict mapping "a" to a list holding an int, a bool,
None, the float 3.5, an empty tuple, a set, a frozenset holding the
empty string and an empty list, over the identity text encoder. -/
theorem sd_roundtrip_witness :
    sdDecode (fun t => t) (sdEncode (fun t => t)
      (.dictV [(.scalar (.strV [97]),
        .listV [.scalar (.intV 30), .scalar (.boolV true), .scalar .noneV,
          .scalar (.floatV [51, 46, 53]), .tupleV [], .setV [.scalar (.intV 1)],
          .frozensetV [.scalar (.strV [])], .listV []])])) =
    some (.dictV [(.scalar (.strV [97]),
        .listV [.scalar (.intV 30), .scalar (.boolV true), .scalar .noneV,
          .scalar (.floatV [51, 46, 53]), .tupleV [], .setV [.scalar (.intV 1)],
          .frozensetV [.scalar (.strV [])], .listV []])]) :=
  sd_roundtrip (fun t => t) (fun t => t) (fun _ => rfl) _
    (by simp only [wfVal, all_attach_eq, all_attach_pair_eq, List.all_cons, List.all_nil,
          wfScalar, Bool.and_eq_true]
        decide)

end Enc

